import Mathlib

/-!
Verification development for the module bundler in
src/native/rasen-gpui/src/module_loader.rs.

The bundler is embedded shallowly: strings are lists of characters,
the filesystem is a function from canonical path strings to optional
file contents, and the regex-based scans of the Rust code are encoded
as deterministic scanners that reproduce the leftmost-first match
semantics of the regex crate for the concrete patterns appearing in
the source.  The external resolver library (oxc_resolver) is not part
of the repository; it is modelled from the specification of the
Resolver component.
-/

namespace Rasen

/-! Characters that are sensitive for the surrounding tooling are
introduced by code point. -/

def sq : Char := Char.ofNat 39

def dq : Char := Char.ofNat 34

def lb : Char := Char.ofNat 123

def rb : Char := Char.ofNat 125

def nl : Char := Char.ofNat 10

/-- Whitespace class of the regex crate, restricted to ASCII. -/
def isWs (c : Char) : Bool :=
  c = ' ' || c = Char.ofNat 9 || c = nl || c = Char.ofNat 13 ||
  c = Char.ofNat 11 || c = Char.ofNat 12

/-- Word-character class of the regex crate, restricted to ASCII. -/
def isWordChar (c : Char) : Bool :=
  c.isAlpha || c.isDigit || c = '_'

/-- Characters allowed in an alias key by parse_config: word characters,
dash and slash. -/
def isKeyChar (c : Char) : Bool :=
  isWordChar c || c = '-' || c = '/'

/-- Quote characters recognised by the patterns of module_loader.rs. -/
def isQuote (c : Char) : Bool :=
  c = sq || c = dq

/-! ### Small list and association-list helpers -/

/-- First successful element of a list of options. -/
def firstSome : List (Option α) → Option α
  | [] => none
  | some a :: _ => some a
  | none :: rest => firstSome rest

/-- Lookup in an association list (first match, as HashMap get). -/
def lookupA (l : List (String × α)) (k : String) : Option α :=
  match l with
  | [] => none
  | (k', v) :: rest => if k' = k then some v else lookupA rest k

/-- Insert into an association list with overwrite semantics,
as HashMap insert. -/
def insertA (l : List (String × α)) (k : String) (v : α) : List (String × α) :=
  match l with
  | [] => [(k, v)]
  | (k', v') :: rest =>
    if k' = k then (k, v) :: rest else (k', v') :: insertA rest k v

/-- Decide whether needle occurs as a contiguous substring of hay,
as Rust str contains. -/
def containsSub (hay needle : List Char) : Bool :=
  match hay with
  | [] => needle.isEmpty
  | _ :: rest => hay.take needle.length = needle || containsSub rest needle

/-- Worker for splitOnL. The first argument is computation fuel that
makes the recursion structural; one unit is spent per consumed
character, so fuel equal to the input length is always enough. -/
def splitOnF (sep : List Char) : Nat → List Char → List Char → List (List Char)
  | _, [], acc => [acc.reverse]
  | 0, l, acc => [acc.reverse ++ l]
  | fuel + 1, c :: rest, acc =>
    if !sep.isEmpty && ((c :: rest).take sep.length == sep) then
      acc.reverse :: splitOnF sep fuel (rest.drop (sep.length - 1)) []
    else
      splitOnF sep fuel rest (c :: acc)

/-- Split on every non-overlapping occurrence of a separator, scanning
left to right, as Rust str split. The separator is assumed nonempty. -/
def splitOnL (sep : List Char) (l : List Char) : List (List Char) :=
  splitOnF sep l.length l []

/-- Trim ASCII whitespace from both ends, as Rust str trim. -/
def trimL (l : List Char) : List Char :=
  ((l.dropWhile isWs).reverse.dropWhile isWs).reverse

/-! ### Matcher combinators

Each regex of module_loader.rs is encoded as a matcher
List Char → Option (captures × rest) that attempts a match anchored at
the start of the input and returns the remaining input after the match.
The concrete patterns in the source are deterministic except for the
lazy dot in the import-extraction patterns, which is handled by an
explicit lazy search below. -/

/-- Match a literal character sequence. -/
def mlit (lit : List Char) (l : List Char) : Option (List Char) :=
  match lit with
  | [] => some l
  | c :: lrest =>
    match l with
    | [] => none
    | x :: xrest => if x = c then mlit lrest xrest else none

/-- Match one character satisfying a predicate. -/
def mchar (p : Char → Bool) (l : List Char) : Option (List Char) :=
  match l with
  | [] => none
  | c :: rest => if p c then some rest else none

/-- Greedily skip whitespace (a regex ws-star item). -/
def mws0 (l : List Char) : List Char :=
  l.dropWhile isWs

/-- Require at least one whitespace character, then greedily skip the
rest of the whitespace run (a regex ws-plus item whose continuation
starts with a non-whitespace character). -/
def mws1 (l : List Char) : Option (List Char) :=
  match l with
  | [] => none
  | c :: rest => if isWs c then some (mws0 rest) else none

/-- Greedily capture a nonempty run of characters satisfying a
predicate (a regex plus item over a character class whose continuation
cannot start with a class character). -/
def mclass1 (p : Char → Bool) (l : List Char) : Option (List Char × List Char) :=
  let cap := l.takeWhile p
  if cap.isEmpty then none else some (cap, l.dropWhile p)

/-- Worker for replaceScan. The fuel makes the recursion structural;
every matcher below consumes at least one character on a successful
match, so fuel equal to the input length is always enough, and on an
exhausted fuel the remaining input is kept unchanged. -/
def replaceScanF (m : List Char → Option (α × List Char)) (r : α → List Char) :
    Nat → List Char → List Char
  | _, [] => []
  | 0, l => l
  | fuel + 1, c :: rest =>
    match m (c :: rest) with
    | some (caps, after) => r caps ++ replaceScanF m r fuel after
    | none => c :: replaceScanF m r fuel rest

/-- Scan the input, replacing every leftmost non-overlapping match with
the rendering of its captures, as regex replace_all. -/
def replaceScan (m : List Char → Option (α × List Char)) (r : α → List Char)
    (l : List Char) : List Char :=
  replaceScanF m r l.length l

/-- Worker for capturesIter, fuelled like replaceScanF. -/
def capturesIterF (m : List Char → Option (α × List Char)) :
    Nat → List Char → List α
  | _, [] => []
  | 0, _ => []
  | fuel + 1, c :: rest =>
    match m (c :: rest) with
    | some (caps, after) => caps :: capturesIterF m fuel after
    | none => capturesIterF m fuel rest

/-- Collect the captures of every leftmost non-overlapping match, as
regex captures_iter. -/
def capturesIter (m : List Char → Option (α × List Char))
    (l : List Char) : List α :=
  capturesIterF m l.length l

/-- Character data of a string literal. -/
def strL (s : String) : List Char :=
  s.data

/-! ### parse_config (module_loader.rs lines 54-73)

The Rust code first deletes every match of the line-comment regex
(two slashes followed by the rest of the line), then every match of
the lazy block-comment regex, then collects every match of the
quoted-key/quoted-value pattern into a map with last-write-wins
insertion. -/

/-- Matcher for the line-comment regex: two slashes and then every
following character up to, but not including, the next newline. -/
def matchLineComment (l : List Char) : Option (Unit × List Char) :=
  (mlit (strL "//") l).map fun r => ((), r.dropWhile (fun x => x != nl))

/-- Delete every line-comment match. -/
def stripLineComments (l : List Char) : List Char :=
  replaceScan matchLineComment (fun _ => []) l

/-- Skip forward through the first closing star-slash, returning the
rest of the input after it. -/
def dropThroughClose : List Char → Option (List Char)
  | [] => none
  | c :: rest =>
    if c = '*' && (rest.take 1 == strL "/") then some (rest.drop 1)
    else dropThroughClose rest

/-- Matcher for the lazy block-comment regex: slash-star, then the
shortest run of any characters up to the first star-slash. There is no
match when no closing star-slash follows. -/
def matchBlockComment (l : List Char) : Option (Unit × List Char) :=
  (mlit (strL "/*") l).bind fun r =>
  (dropThroughClose r).map fun after => ((), after)

/-- Delete every block-comment match. -/
def stripBlockComments (l : List Char) : List Char :=
  replaceScan matchBlockComment (fun _ => []) l

/-- Matcher for the alias-pair pattern: a quote, an optional leading at
sign followed by one or more key characters (captured), a quote,
optional whitespace around a colon, a quote, one or more non-quote
characters (captured), and a closing quote. -/
def matchPair (l : List Char) : Option ((List Char × List Char) × List Char) :=
  (mchar isQuote l).bind fun l1 =>
  let hasAt := l1.take 1 = strL "@"
  let atPart := if hasAt then strL "@" else []
  let l2 := if hasAt then l1.drop 1 else l1
  (mclass1 isKeyChar l2).bind fun (key, l3) =>
  (mchar isQuote l3).bind fun l4 =>
  (mchar (· = ':') (mws0 l4)).bind fun l6 =>
  (mchar isQuote (mws0 l6)).bind fun l8 =>
  (mclass1 (fun c => !isQuote c) l8).bind fun (v, l9) =>
  (mchar isQuote l9).map fun l10 => ((atPart ++ key, v), l10)

/-- Embedding of parse_config: strip line comments, then block
comments, then collect every alias pair into a last-write-wins table.
The table is represented as an insertion-ordered association list. -/
def parse_config (content : String) : List (String × String) :=
  let c1 := stripLineComments content.data
  let c2 := stripBlockComments c1
  (capturesIter matchPair c2).foldl
    (fun acc (kv : List Char × List Char) => insertA acc ⟨kv.1⟩ ⟨kv.2⟩) []

/-! ### parse_imports (module_loader.rs lines 237-259)

Three independent scans over the raw source: static import-from,
export-from, and dynamic import. The first two patterns contain a lazy
dot between two whitespace runs; the search below enumerates the
greedy whitespace split longest first and the lazy dot split shortest
first, reproducing the backtracking priority of the regex engine. -/

/-- Suffixes of the input after consuming k leading whitespace
characters, for k from the length of the maximal whitespace run down
to one (greedy preference order of a whitespace-plus item). -/
def wsPlusSplits : List Char → List (List Char)
  | [] => []
  | c :: rest => if isWs c then wsPlusSplits rest ++ [rest] else []

/-- Suffixes of the input after consuming 0, 1, 2, ... characters of
the maximal run of non-newline characters (lazy preference order of a
lazy dot item, where the dot does not match a newline). -/
def dotLazySplits : List Char → List (List Char)
  | [] => [[]]
  | c :: rest => if c = nl then [c :: rest] else (c :: rest) :: dotLazySplits rest

/-- Deterministic tail of the import-from and export-from patterns:
whitespace, the word from, whitespace, and a quoted specifier whose
body is captured. -/
def matchFromTail (l : List Char) : Option (List Char × List Char) :=
  (mws1 l).bind fun l1 =>
  (mlit (strL "from") l1).bind fun l2 =>
  (mws1 l2).bind fun l3 =>
  (mchar isQuote l3).bind fun l4 =>
  (mclass1 (fun c => !isQuote c) l4).bind fun (spec, l5) =>
  (mchar isQuote l5).map fun l6 => (spec, l6)

/-- Matcher for the static import pattern: the word import, whitespace,
a lazy run of non-newline characters, then the from tail. -/
def matchImportFrom (l : List Char) : Option (List Char × List Char) :=
  (mlit (strL "import") l).bind fun l1 =>
  firstSome ((wsPlusSplits l1).map fun l2 =>
    firstSome ((dotLazySplits l2).map fun l3 => matchFromTail l3))

/-- Matcher for the export-from extraction pattern, of the same shape
as the static import pattern. -/
def matchExportFrom (l : List Char) : Option (List Char × List Char) :=
  (mlit (strL "export") l).bind fun l1 =>
  firstSome ((wsPlusSplits l1).map fun l2 =>
    firstSome ((dotLazySplits l2).map fun l3 => matchFromTail l3))

/-- Matcher for the dynamic import pattern: the word import, optional
whitespace, an opening parenthesis, optional whitespace, a quoted
specifier (captured), optional whitespace, a closing parenthesis. -/
def matchDynamicImport (l : List Char) : Option (List Char × List Char) :=
  (mlit (strL "import") l).bind fun l1 =>
  (mchar (· = '(') (mws0 l1)).bind fun l3 =>
  (mchar isQuote (mws0 l3)).bind fun l5 =>
  (mclass1 (fun c => !isQuote c) l5).bind fun (spec, l6) =>
  (mchar isQuote l6).bind fun l7 =>
  (mchar (· = ')') (mws0 l7)).map fun l9 => (spec, l9)

/-- Embedding of parse_imports: the captured specifiers of the three
scans, in scan order. -/
def parse_imports (source : String) : List String :=
  ((capturesIter matchImportFrom source.data ++
    capturesIter matchExportFrom source.data ++
    capturesIter matchDynamicImport source.data).map
      fun l => (⟨l⟩ : String))

/-! ### Paths, filesystem, and the resolver model

Canonical paths are plain strings; the filesystem is a function from
canonical path to optional file contents. Path.canonicalize of the
Rust code is modelled as an existence check that returns the path
itself, so every path held in the model filesystem is already in
canonical form. -/

/-- Join a base directory and a relative path, as Path.join. -/
def joinPath (base rel : String) : String :=
  base ++ "/" ++ rel

/-- Model of Path.canonicalize: succeeds exactly when the file exists,
returning the (already canonical) path itself. -/
def canonicalizeF (fs : String → Option String) (p : String) : Option String :=
  if (fs p).isSome then some p else none

/-- Model of Path.parent: the prefix of the path up to, and not
including, the last slash. -/
def parentDir (p : String) : String :=
  ⟨((p.data.reverse.dropWhile fun c => c != '/').drop 1).reverse⟩

/-- Modelled from the spec: the Resolver component (spec section 4.2)
is implemented by the external oxc_resolver library, which is not part
of this repository. Resolution order follows the spec text: (1) a
specifier matching an alias key is substituted by the canonicalized
alias target; (2) otherwise the specifier is resolved against the
importing directory by filesystem lookup, trying the literal path and
then the path with each configured extension appended, in order. The
directory/package-entry-field branch of the spec (main fields and
condition names) is not modelled: the model treats a specifier that
names no file as unresolved, and no claim depends on that branch.
Returns none, not an error, when nothing resolves. -/
def oxc_resolve (aliasList : List (String × String)) (extensions : List String)
    (fs : String → Option String) (dir spec : String) : Option String :=
  match lookupA aliasList spec with
  | some target => some target
  | none =>
    let cand := joinPath dir spec
    if (fs cand).isSome then some cand
    else firstSome (extensions.map fun e =>
      if (fs (cand ++ e)).isSome then some (cand ++ e) else none)

/-- The alias list built by create_resolver (lines 416-428): each
alias name paired with its canonicalized target, skipping targets that
fail to canonicalize. -/
def alias_pairs (fs : String → Option String) (base_dir : String)
    (aliases : List (String × String)) : List (String × String) :=
  aliases.filterMap fun nv =>
    match canonicalizeF fs (joinPath base_dir nv.2) with
    | some c => some (nv.1, c)
    | none => none

/-- Embedding of create_resolver (lines 415-437): a resolver over the
canonicalized alias list with the fixed extension list. -/
def create_resolver (fs : String → Option String) (base_dir : String)
    (aliases : List (String × String)) : String → String → Option String :=
  oxc_resolve (alias_pairs fs base_dir aliases) [".js", ".mjs", ".cjs"] fs

/-- Embedding of resolve_import (lines 262-267): a resolver success
yields the resolved path, a resolver error yields none. -/
def resolve_import (resolver : String → String → Option String)
    (dir spec : String) : Option String :=
  resolver dir spec

/-- A loaded module: canonical path, original source, resolved
dependency canonical paths (module_loader.rs lines 76-85). -/
structure Module where
  path : String
  source : String
  dependencies : List String
deriving Repr, DecidableEq

/-! ### transform_module (module_loader.rs lines 269-412)

Eight ordered text substitutions over the module source. Paths are
embedded with the Rust debug formatting of the path string. -/

/-- Escape one character as Rust Debug string formatting does for the
characters that can occur here. -/
def escC (c : Char) : List Char :=
  if c = dq then ['\\', dq]
  else if c = '\\' then ['\\', '\\']
  else if c = nl then ['\\', 'n']
  else if c = Char.ofNat 9 then ['\\', 't']
  else if c = Char.ofNat 13 then ['\\', 'r']
  else [c]

/-- Rust Debug formatting of a string: double quotes around the
escaped character data. -/
def rustDebugL (l : List Char) : List Char :=
  [dq] ++ l.foldr (fun c acc => escC c ++ acc) [] ++ [dq]

/-- The path text embedded for a specifier: the mapped canonical path
when the per-module map has one, the raw specifier itself otherwise
(the unwrap_or fallback of the Rust code). -/
def pathFor (m : List (String × String)) (spec : List Char) : List Char :=
  strL ((lookupA m (⟨spec⟩ : String)).getD (⟨spec⟩ : String))

/-- Matcher for the named-import pattern: import, optional whitespace,
open brace, the brace body (captured), close brace, optional
whitespace, from, optional whitespace, a quoted specifier (captured). -/
def matchNamedImport (l : List Char) :
    Option ((List Char × List Char) × List Char) :=
  (mlit (strL "import") l).bind fun l1 =>
  (mchar (· = lb) (mws0 l1)).bind fun l3 =>
  (mclass1 (fun c => c != rb) l3).bind fun (names, l4) =>
  (mchar (· = rb) l4).bind fun l5 =>
  (mlit (strL "from") (mws0 l5)).bind fun l7 =>
  (mchar isQuote (mws0 l7)).bind fun l9 =>
  (mclass1 (fun c => !isQuote c) l9).bind fun (spec, l10) =>
  (mchar isQuote l10).map fun l11 => ((names, spec), l11)

/-- Replacement for a named import: a destructuring require binding. -/
def renderNamedImport (m : List (String × String))
    (caps : List Char × List Char) : List Char :=
  strL "const " ++ [lb] ++ caps.1 ++ [rb] ++ strL " = require(" ++
    rustDebugL (pathFor m caps.2) ++ strL ")"

/-- First substitution pass: named imports. -/
def namedImportPass (m : List (String × String)) (l : List Char) : List Char :=
  replaceScan matchNamedImport (renderNamedImport m) l

/-- Matcher for the default-import pattern: import, whitespace, a word
name (captured), whitespace, from, optional whitespace, a quoted
specifier (captured). -/
def matchDefaultImport (l : List Char) :
    Option ((List Char × List Char) × List Char) :=
  (mlit (strL "import") l).bind fun l1 =>
  (mws1 l1).bind fun l2 =>
  (mclass1 isWordChar l2).bind fun (name, l3) =>
  (mws1 l3).bind fun l4 =>
  (mlit (strL "from") l4).bind fun l5 =>
  (mchar isQuote (mws0 l5)).bind fun l7 =>
  (mclass1 (fun c => !isQuote c) l7).bind fun (spec, l8) =>
  (mchar isQuote l8).map fun l9 => ((name, spec), l9)

/-- Replacement for a default import: an immediately invoked function
returning the default property of the module object if that value is
truthy, and the module object otherwise. -/
def renderDefaultImport (m : List (String × String))
    (caps : List Char × List Char) : List Char :=
  strL "const " ++ caps.1 ++ strL " = (function()" ++ [lb] ++
    strL " var m = require(" ++ rustDebugL (pathFor m caps.2) ++
    strL "); return m.default || m; " ++ [rb] ++ strL ")()"

/-- Second substitution pass: default imports. -/
def defaultImportPass (m : List (String × String)) (l : List Char) : List Char :=
  replaceScan matchDefaultImport (renderDefaultImport m) l

/-- Matcher for the namespace-import pattern: import, optional
whitespace, star, optional whitespace, as, whitespace, a word name
(captured), whitespace, from, optional whitespace, a quoted specifier
(captured). -/
def matchStarImport (l : List Char) :
    Option ((List Char × List Char) × List Char) :=
  (mlit (strL "import") l).bind fun l1 =>
  (mchar (· = '*') (mws0 l1)).bind fun l3 =>
  (mlit (strL "as") (mws0 l3)).bind fun l5 =>
  (mws1 l5).bind fun l6 =>
  (mclass1 isWordChar l6).bind fun (name, l7) =>
  (mws1 l7).bind fun l8 =>
  (mlit (strL "from") l8).bind fun l9 =>
  (mchar isQuote (mws0 l9)).bind fun l11 =>
  (mclass1 (fun c => !isQuote c) l11).bind fun (spec, l12) =>
  (mchar isQuote l12).map fun l13 => ((name, spec), l13)

/-- Replacement for a namespace import: a direct require binding. -/
def renderStarImport (m : List (String × String))
    (caps : List Char × List Char) : List Char :=
  strL "const " ++ caps.1 ++ strL " = require(" ++
    rustDebugL (pathFor m caps.2) ++ strL ")"

/-- Third substitution pass: namespace imports. -/
def starImportPass (m : List (String × String)) (l : List Char) : List Char :=
  replaceScan matchStarImport (renderStarImport m) l

/-- Matcher for the re-export pattern: export, optional whitespace, a
braced name list (captured), optional whitespace, from, optional
whitespace, a quoted specifier (captured). -/
def matchReExport (l : List Char) :
    Option ((List Char × List Char) × List Char) :=
  (mlit (strL "export") l).bind fun l1 =>
  (mchar (· = lb) (mws0 l1)).bind fun l3 =>
  (mclass1 (fun c => c != rb) l3).bind fun (names, l4) =>
  (mchar (· = rb) l4).bind fun l5 =>
  (mlit (strL "from") (mws0 l5)).bind fun l7 =>
  (mchar isQuote (mws0 l7)).bind fun l9 =>
  (mclass1 (fun c => !isQuote c) l9).bind fun (spec, l10) =>
  (mchar isQuote l10).map fun l11 => ((names, spec), l11)

/-- Replacement for a re-export: one exports assignment per listed
name, honoring renaming with the word as, joined by semicolons. -/
def renderReExport (m : List (String × String))
    (caps : List Char × List Char) : List Char :=
  let nameList := (splitOnL (strL ",") caps.1).map trimL
  let assigns := nameList.map fun n =>
    let parts := splitOnL (strL " as ") n
    let fromName := if parts.length = 2 then trimL ((parts.get? 0).getD n) else n
    let toName := if parts.length = 2 then trimL ((parts.get? 1).getD n) else n
    strL "exports." ++ toName ++ strL " = require(" ++
      rustDebugL (pathFor m caps.2) ++ strL ")." ++ fromName
  List.intercalate (strL "; ") assigns

/-- Fourth substitution pass: re-exports. -/
def reExportPass (m : List (String × String)) (l : List Char) : List Char :=
  replaceScan matchReExport (renderReExport m) l

/-- Matcher for the star re-export pattern: export, optional
whitespace, star, optional whitespace, from, optional whitespace, a
quoted specifier (captured). -/
def matchStarExport (l : List Char) : Option (List Char × List Char) :=
  (mlit (strL "export") l).bind fun l1 =>
  (mchar (· = '*') (mws0 l1)).bind fun l3 =>
  (mlit (strL "from") (mws0 l3)).bind fun l5 =>
  (mchar isQuote (mws0 l5)).bind fun l7 =>
  (mclass1 (fun c => !isQuote c) l7).bind fun (spec, l8) =>
  (mchar isQuote l8).map fun l9 => (spec, l9)

/-- Replacement for a star re-export: merge the required module object
into exports. -/
def renderStarExport (m : List (String × String)) (spec : List Char) : List Char :=
  strL "Object.assign(exports, require(" ++
    rustDebugL (pathFor m spec) ++ strL "))"

/-- Fifth substitution pass: star re-exports. -/
def starExportPass (m : List (String × String)) (l : List Char) : List Char :=
  replaceScan matchStarExport (renderStarExport m) l

/-- Matcher for the bare export-list pattern: export, optional
whitespace, a braced name list. Captures both the full matched text
(needed by the guard of the replacement) and the brace body. -/
def matchExportNames (l : List Char) :
    Option ((List Char × List Char) × List Char) :=
  (mlit (strL "export") l).bind fun l1 =>
  (mchar (· = lb) (mws0 l1)).bind fun l3 =>
  (mclass1 (fun c => c != rb) l3).bind fun (names, l4) =>
  (mchar (· = rb) l4).map fun l5 =>
  ((l.take (l.length - l5.length), names), l5)

/-- Replacement for a bare export list: the full match is returned
unchanged when its text contains the word from anywhere; otherwise one
exports assignment per listed name, honoring renaming. -/
def renderExportNames (caps : List Char × List Char) : List Char :=
  if containsSub caps.1 (strL "from") then caps.1
  else
    let nameList := (splitOnL (strL ",") caps.2).map trimL
    let assigns := nameList.map fun p =>
      let parts := splitOnL (strL " as ") p
      let localN := if parts.length = 2 then trimL ((parts.get? 0).getD p) else p
      let exportedN := if parts.length = 2 then trimL ((parts.get? 1).getD p) else p
      strL "exports." ++ exportedN ++ strL " = " ++ localN
    List.intercalate (strL "; ") assigns

/-- Sixth substitution pass: bare export lists. -/
def exportNamesPass (l : List Char) : List Char :=
  replaceScan matchExportNames renderExportNames l

/-- Matcher for the export-declaration pattern: export, whitespace, one
of the declaration keywords (captured, tried in the order of the
alternation), whitespace, a word name (captured). -/
def matchExportDecl (l : List Char) :
    Option ((List Char × List Char) × List Char) :=
  (mlit (strL "export") l).bind fun l1 =>
  (mws1 l1).bind fun l2 =>
  firstSome (["const", "let", "var", "function", "class"].map fun kw =>
    (mlit (strL kw) l2).bind fun l3 =>
    (mws1 l3).bind fun l4 =>
    (mclass1 isWordChar l4).map fun (name, l5) => ((strL kw, name), l5))

/-- Replacement for an export declaration: keep the declaration and
add an exports assignment. -/
def renderExportDecl (caps : List Char × List Char) : List Char :=
  caps.1 ++ strL " " ++ caps.2 ++ strL "; exports." ++ caps.2 ++
    strL " = " ++ caps.2

/-- Seventh substitution pass: export declarations. -/
def exportDeclPass (l : List Char) : List Char :=
  replaceScan matchExportDecl renderExportDecl l

/-- Matcher for the literal text export default. -/
def matchExportDefault (l : List Char) : Option (Unit × List Char) :=
  (mlit (strL "export default") l).map fun r => ((), r)

/-- Eighth substitution pass: the plain string replacement of export
default by an exports.default assignment. -/
def exportDefaultPass (l : List Char) : List Char :=
  replaceScan matchExportDefault (fun _ => strL "exports.default =") l

/-- Embedding of transform_module: re-resolve this module's specifiers
with a fresh alias-free resolver to build the specifier-to-path map,
then apply the eight substitution passes in source order. The Rust
function also reads the module entry out of the module map into an
unused binding; the map parameter is kept and ignored accordingly.
The Rust function always returns Ok. -/
def transform_module (fs : String → Option String) (source : String)
    (module_path : String) (_modules : List (String × Module)) : String :=
  let dir := parentDir module_path
  let imports := parse_imports source
  let resolver := oxc_resolve [] [".js", ".mjs", ".cjs"] fs
  let spec_to_path := imports.foldl
    (fun m spec =>
      match resolve_import resolver dir spec with
      | some r => insertA m spec r
      | none => m) []
  let c1 := namedImportPass spec_to_path source.data
  let c2 := defaultImportPass spec_to_path c1
  let c3 := starImportPass spec_to_path c2
  let c4 := reExportPass spec_to_path c3
  let c5 := starExportPass spec_to_path c4
  let c6 := exportNamesPass c5
  let c7 := exportDeclPass c6
  let c8 := exportDefaultPass c7
  ⟨c8⟩

/-! ### The dependency-graph builder (module_loader.rs lines 88-234)

State of a bundling run: the module map, the global load order, and
the set of paths on the active DFS stack. The map and the set are
modelled as lists with the insertion semantics of HashMap and HashSet.
The fuel parameter bounds the recursion depth; exhausting it is an
error, so a successful run never depended on the bound. -/

structure LoadState where
  modules : List (String × Module)
  load_order : List String
  visiting : List String
deriving Repr, DecidableEq

/-- The dependency computation of load_module_recursive (lines
203-214): parse the import specifiers of the source and keep those the
resolver resolves, in order. -/
def depsOf (resolver : String → String → Option String)
    (path : String) (source : String) : List String :=
  (parse_imports source).filterMap fun imp =>
    resolve_import resolver (parentDir path) imp

/-- The dependency loop of load_module_recursive (lines 216-219): run
the given loading step on each resolved dependency in order, threading
the state and stopping at the first error. -/
def load_deps (step : String → LoadState → Except String LoadState) :
    List String → LoadState → Except String LoadState
  | [], st => .ok st
  | d :: rest, st =>
    match step d st with
    | .error e => .error e
    | .ok st' => load_deps step rest st'

/-- Embedding of load_module_recursive (lines 180-234): return at once
when the path is already loaded or currently being visited; otherwise
mark it as visiting, read it (a read failure is fatal), extract and
resolve its imports, recurse into each resolved dependency, then
record the module, append the path to the load order and unmark it. -/
def load_module_recursive (fuel : Nat) (fs : String → Option String)
    (resolver : String → String → Option String)
    (path : String) (st : LoadState) : Except String LoadState :=
  match fuel with
  | 0 => .error "recursion limit"
  | fuel + 1 =>
    if (lookupA st.modules path).isSome then .ok st
    else if path ∈ st.visiting then .ok st
    else
      let st1 : LoadState := { st with visiting := path :: st.visiting }
      match fs path with
      | none => .error ("Cannot read " ++ path)
      | some source =>
        let dependencies := depsOf resolver path source
        match load_deps (load_module_recursive fuel fs resolver)
            dependencies st1 with
        | .error e => .error e
        | .ok st2 =>
          .ok { modules := insertA st2.modules path ⟨path, source, dependencies⟩,
                load_order := st2.load_order ++ [path],
                visiting := st2.visiting.erase path }

/-- Embedding of the entry loop of bundle_modules (lines 95-109): for
each alias in iteration order, canonicalize its target against the
base directory (a failure here is the one fatal resolution error) and
run the recursive loader with a fresh visiting set. -/
def load_entries (fuel : Nat) (fs : String → Option String)
    (resolver : String → String → Option String) (base_dir : String) :
    List (String × String) → LoadState → Except String LoadState
  | [], st => .ok st
  | (name, rel) :: rest, st =>
    match canonicalizeF fs (joinPath base_dir rel) with
    | none => .error ("Cannot resolve entry " ++ name)
    | some canonical =>
      match load_module_recursive fuel fs resolver canonical
          { st with visiting := [] } with
      | .error e => .error e
      | .ok st' => load_entries fuel fs resolver base_dir rest st'

/-- The graph-building phase of bundle_modules: build the resolver from
the alias table and run the entry loop from the empty state. The alias
table is passed as a list in hash-map iteration order. -/
def bundle_graph (fuel : Nat) (fs : String → Option String)
    (base_dir : String) (aliases : List (String × String)) :
    Except String LoadState :=
  load_entries fuel fs (create_resolver fs base_dir aliases) base_dir aliases
    { modules := [], load_order := [], visiting := [] }

/-! ### The bundle emitter (module_loader.rs lines 111-176) -/

/-- Rust Debug formatting of a path or name string. -/
def rustDebug (s : String) : String :=
  ⟨rustDebugL s.data⟩

/-- The fixed runtime preamble of the bundle: scope opening, registry
and cache declarations, and the memoizing require function. -/
def bundle_preamble : String :=
  "(function() \x7b\n" ++
  "  \x27use strict\x27;\n" ++
  "  var __modules = \x7b\x7d;\n" ++
  "  var __cache = \x7b\x7d;\n\n" ++
  "  function __require(id) \x7b\n" ++
  "    if (__cache[id]) return __cache[id].exports;\n" ++
  "    var module = \x7b exports: \x7b\x7d \x7d;\n" ++
  "    __cache[id] = module;\n" ++
  "    __modules[id](module, module.exports, __require);\n" ++
  "    return module.exports;\n" ++
  "  \x7d\n\n"

/-- One registry entry: the module id (its canonical path, Debug
formatted) mapped to an initializer closure wrapping the transformed
source. The module lookup cannot fail for a path of the load order;
the empty fallback mirrors the fact that the Rust unwrap is never
reached. -/
def module_entry (fs : String → Option String)
    (modules : List (String × Module)) (path : String) : String :=
  let transformed :=
    match lookupA modules path with
    | some m => transform_module fs m.source path modules
    | none => ""
  "  __modules[" ++ rustDebug path ++
    "] = function(module, exports, require) \x7b\n" ++
    transformed ++ "\n  \x7d;\n\n"

/-- The alias-name to canonical-path table of the bundle, one line per
alias whose target canonicalizes. -/
def alias_table_text (fs : String → Option String) (base_dir : String)
    (aliases : List (String × String)) : String :=
  "  var __aliases = \x7b\n" ++
  String.join (aliases.map fun nv =>
    match canonicalizeF fs (joinPath base_dir nv.2) with
    | some canonical =>
      "    " ++ rustDebug nv.1 ++ ": " ++ rustDebug canonical ++ ",\n"
    | none => "") ++
  "  \x7d;\n\n"

/-- The global alias-resolution function of the bundle. -/
def require_alias_text : String :=
  "  globalThis.__requireAlias = function(name) \x7b\n" ++
  "    var id = __aliases[name];\n" ++
  "    if (!id) throw new Error(\x27Unknown module: \x27 + name);\n" ++
  "    return __require(id);\n" ++
  "  \x7d;\n\n"

/-- The eager global registration of every alias target. -/
def registration_text (fs : String → Option String) (base_dir : String)
    (aliases : List (String × String)) : String :=
  "  // Register aliased modules to global __modules\n" ++
  "  if (typeof globalThis.__modules === \x27undefined\x27) globalThis.__modules = \x7b\x7d;\n" ++
  String.join (aliases.map fun nv =>
    match canonicalizeF fs (joinPath base_dir nv.2) with
    | some canonical =>
      "  globalThis.__modules[" ++ rustDebug nv.1 ++ "] = __require(" ++
        rustDebug canonical ++ ");\n"
    | none => "")

/-- Assemble the full bundle text from a finished load state. -/
def emit_bundle (fs : String → Option String) (base_dir : String)
    (aliases : List (String × String)) (st : LoadState) : String :=
  bundle_preamble ++
  String.join (st.load_order.map (module_entry fs st.modules)) ++
  alias_table_text fs base_dir aliases ++
  require_alias_text ++
  registration_text fs base_dir aliases ++
  "\x7d)();\n"

/-- Embedding of bundle_modules (lines 88-177): run the graph-building
phase and emit the bundle text. -/
def bundle_modules (fuel : Nat) (fs : String → Option String)
    (base_dir : String) (aliases : List (String × String)) :
    Except String String :=
  match bundle_graph fuel fs base_dir aliases with
  | .error e => .error e
  | .ok st => .ok (emit_bundle fs base_dir aliases st)

/-- Embedding of ModuleLoader.load_modules (lines 28-45): a missing
config file is a no-op, otherwise extract the alias table from the
config text and bundle. The alias iteration order of the run is the
insertion order of the extracted table. -/
def load_modules (fuel : Nat) (fs : String → Option String)
    (work_dir : String) : Except String (Option String) :=
  match fs (joinPath work_dir "rasen.config.js") with
  | none => .ok none
  | some config_content =>
    let aliases := parse_config config_content
    match bundle_modules fuel fs work_dir aliases with
    | .error e => .error e
    | .ok b => .ok (some b)

/-! ### Lemmas about the association-list operations -/

theorem lookupA_insertA_self (l : List (String × α)) (k : String) (v : α) :
    lookupA (insertA l k v) k = some v := by
  induction l with
  | nil => simp [insertA, lookupA]
  | cons kv rest ih =>
    obtain ⟨k', v'⟩ := kv
    by_cases h : k' = k
    · simp [insertA, h, lookupA]
    · simp [insertA, h, lookupA, ih]

theorem lookupA_insertA_ne (l : List (String × α)) (k k' : String) (v : α)
    (h : k' ≠ k) : lookupA (insertA l k v) k' = lookupA l k' := by
  have h' : k ≠ k' := Ne.symm h
  induction l with
  | nil => simp [insertA, lookupA, h']
  | cons kv rest ih =>
    obtain ⟨k0, v0⟩ := kv
    by_cases h0 : k0 = k
    · subst h0
      simp [insertA, lookupA, h']
    · simp [insertA, h0, lookupA, ih]

theorem lookupA_eq_none_iff (l : List (String × α)) (k : String) :
    lookupA l k = none ↔ k ∉ l.map Prod.fst := by
  induction l with
  | nil => simp [lookupA]
  | cons kv rest ih =>
    obtain ⟨k', v'⟩ := kv
    by_cases h : k' = k
    · subst h
      simp [lookupA]
    · simp [lookupA, h, ih, Ne.symm h]

theorem keys_insertA (l : List (String × α)) (k : String) (v : α) :
    (insertA l k v).map Prod.fst =
      if k ∈ l.map Prod.fst then l.map Prod.fst
      else l.map Prod.fst ++ [k] := by
  induction l with
  | nil => simp [insertA]
  | cons kv rest ih =>
    obtain ⟨k0, v0⟩ := kv
    by_cases h0 : k0 = k
    · subst h0
      simp [insertA]
    · simp only [insertA, h0, if_false, List.map_cons, ih]
      by_cases hk : k ∈ rest.map Prod.fst
      · simp [hk, Ne.symm h0]
      · simp [hk, Ne.symm h0]

theorem keys_nodup_insertA (l : List (String × α)) (k : String) (v : α)
    (h : (l.map Prod.fst).Nodup) : ((insertA l k v).map Prod.fst).Nodup := by
  rw [keys_insertA]
  by_cases hk : k ∈ l.map Prod.fst
  · simpa [hk]
  · simp only [hk, if_false, List.nodup_append]
    refine ⟨h, List.nodup_singleton k, ?_⟩
    intro x hx1 hx2
    simp at hx2
    subst hx2
    exact hk hx1

/-! ### Shape of a successful traversal step

A successful call of load_module_recursive leaves the visiting set as
it found it, never touches the map entry of a path that is on the
visiting set at call time, preserves every existing map entry, and
only appends to the load order. -/

/-- Relation between the state before and after a successful call. -/
def LmrOk (st st' : LoadState) : Prop :=
  st'.visiting = st.visiting ∧
  (∀ q, q ∈ st.visiting → lookupA st'.modules q = lookupA st.modules q) ∧
  (∀ q v, lookupA st.modules q = some v → lookupA st'.modules q = some v) ∧
  (∃ added, st'.load_order = st.load_order ++ added)

theorem LmrOk.refl (st : LoadState) : LmrOk st st :=
  ⟨rfl, fun _ _ => rfl, fun _ _ h => h, [], by simp⟩

theorem LmrOk.trans {a b c : LoadState} (h1 : LmrOk a b) (h2 : LmrOk b c) :
    LmrOk a c := by
  obtain ⟨v1, k1, m1, d1, o1⟩ := h1
  obtain ⟨v2, k2, m2, d2, o2⟩ := h2
  refine ⟨v2.trans v1, fun q hq => ?_, fun q v hv => m2 q v (m1 q v hv),
    d1 ++ d2, by rw [o2, o1, List.append_assoc]⟩
  rw [k2 q (by rw [v1]; exact hq), k1 q hq]

/-- The dependency loop inherits the shape facts from its step. -/
theorem ldl_shape_of (step : String → LoadState → Except String LoadState)
    (hstep : ∀ path st st', step path st = .ok st' → LmrOk st st') :
    ∀ (deps : List String) (st st' : LoadState),
      load_deps step deps st = .ok st' → LmrOk st st' := by
  intro deps
  induction deps with
  | nil =>
    intro st st' h
    simp [load_deps] at h
    simp [← h, LmrOk.refl]
  | cons d rest ih =>
    intro st st' h
    rw [load_deps] at h
    cases hd : step d st with
    | error e => simp [hd] at h
    | ok stm =>
      simp [hd] at h
      exact (hstep _ _ _ hd).trans (ih _ _ h)

/-- The shape facts for load_module_recursive, by induction on the
fuel. -/
theorem lmr_shape (fs : String → Option String)
    (resolver : String → String → Option String) :
    ∀ (fuel : Nat) (path : String) (st st' : LoadState),
      load_module_recursive fuel fs resolver path st = .ok st' →
        LmrOk st st' := by
  intro fuel
  induction fuel with
  | zero =>
    intro path st st' h
    simp [load_module_recursive] at h
  | succ n ihn =>
    intro path st st' h
    rw [load_module_recursive] at h
    by_cases h1 : (lookupA st.modules path).isSome
    · simp [h1] at h
      simp [← h, LmrOk.refl]
    · by_cases h2 : path ∈ st.visiting
      · simp [h1, h2] at h
        simp [← h, LmrOk.refl]
      · simp [h1, h2] at h
        cases hfs : fs path with
        | none => simp [hfs] at h
        | some source =>
          simp [hfs] at h
          cases hld : load_deps (load_module_recursive n fs resolver)
              (depsOf resolver path source)
              { st with visiting := path :: st.visiting } with
          | error e => simp [hld] at h
          | ok st2 =>
            simp [hld] at h
            obtain ⟨v2, k2, m2, d2, o2⟩ :=
              ldl_shape_of _ ihn _ _ _ hld
            simp at v2
            refine ⟨?_, ?_, ?_, ?_⟩
            · rw [← h]
              simp [v2, List.erase_cons_head]
            · intro q hq
              rw [← h]
              simp only
              have hqp : q ≠ path := fun he => h2 (he ▸ hq)
              rw [lookupA_insertA_ne _ _ _ _ hqp]
              exact k2 q (by simp [hq])
            · intro q v hv
              rw [← h]
              simp only
              have hqp : q ≠ path := by
                intro he
                subst he
                simp [hv] at h1
              rw [lookupA_insertA_ne _ _ _ _ hqp]
              exact m2 q v hv
            · exact ⟨d2 ++ [path], by rw [← h]; simp [o2]⟩

theorem isSome_insertA (l : List (String × α)) (k k' : String) (v : α)
    (h : (lookupA l k').isSome) : (lookupA (insertA l k v) k').isSome := by
  by_cases hk : k' = k
  · subst hk
    simp [lookupA_insertA_self]
  · rw [lookupA_insertA_ne _ _ _ _ hk]
    exact h

/-- A call on a path that is not currently being visited leaves that
path loaded in the module map. -/
theorem lmr_loaded (fuel : Nat) (fs : String → Option String)
    (resolver : String → String → Option String)
    (path : String) (st st' : LoadState)
    (hvis : path ∉ st.visiting)
    (h : load_module_recursive fuel fs resolver path st = .ok st') :
    (lookupA st'.modules path).isSome := by
  cases fuel with
  | zero => simp [load_module_recursive] at h
  | succ n =>
    rw [load_module_recursive] at h
    by_cases h1 : (lookupA st.modules path).isSome
    · simp [h1] at h
      rw [← h]
      exact h1
    · simp [h1, hvis] at h
      cases hfs : fs path with
      | none => simp [hfs] at h
      | some source =>
        simp [hfs] at h
        cases hld : load_deps (load_module_recursive n fs resolver)
            (depsOf resolver path source)
            { st with visiting := path :: st.visiting } with
        | error e => simp [hld] at h
        | ok st2 =>
          simp [hld] at h
          rw [← h]
          simp [lookupA_insertA_self]

/-- After a successful dependency loop, every dependency is either in
the module map or was on the visiting set when the loop started. -/
theorem ldl_deps_loaded (step : String → LoadState → Except String LoadState)
    (hshape : ∀ path st st', step path st = .ok st' → LmrOk st st')
    (hloaded : ∀ path st st', path ∉ st.visiting → step path st = .ok st' →
      (lookupA st'.modules path).isSome) :
    ∀ (deps : List String) (st st' : LoadState),
      load_deps step deps st = .ok st' →
      ∀ d ∈ deps, (lookupA st'.modules d).isSome ∨ d ∈ st.visiting := by
  intro deps
  induction deps with
  | nil =>
    intro st st' _ d hd
    simp at hd
  | cons d0 rest ih =>
    intro st st' h d hd
    rw [load_deps] at h
    cases hm : step d0 st with
    | error e => simp [hm] at h
    | ok stm =>
      simp [hm] at h
      rcases List.mem_cons.mp hd with rfl | hdr
      · by_cases hv : d ∈ st.visiting
        · exact Or.inr hv
        · left
          have hs := hloaded d st stm hv hm
          obtain ⟨v, hv2⟩ := Option.isSome_iff_exists.mp hs
          have := (ldl_shape_of step hshape rest stm st' h).2.2.1 d v hv2
          simp [this]
      · have hrec := ih stm st' h d hdr
        rcases hrec with h2 | h2
        · exact Or.inl h2
        · rw [(hshape d0 st stm hm).1] at h2
          exact Or.inr h2

/-! ### The state invariant of a bundling run

The invariant bundles: the load order has no duplicates; a path is in
the load order exactly when it is in the module map; a path being
visited is never in the map; map keys are unique; every recorded
module stores its own path, its source as read from the filesystem and
its dependency list as recomputed from that source; and the recorded
dependencies of every module are in the map or on the visiting set. -/
def StInv (fs : String → Option String)
    (resolver : String → String → Option String) (st : LoadState) : Prop :=
  st.load_order.Nodup ∧
  (∀ p, p ∈ st.load_order ↔ (lookupA st.modules p).isSome) ∧
  (∀ p ∈ st.visiting, lookupA st.modules p = none) ∧
  (st.modules.map Prod.fst).Nodup ∧
  (∀ q m, lookupA st.modules q = some m →
    m.path = q ∧ fs q = some m.source ∧
    m.dependencies = depsOf resolver q m.source) ∧
  (∀ q m, lookupA st.modules q = some m →
    ∀ d ∈ m.dependencies, (lookupA st.modules d).isSome ∨ d ∈ st.visiting)

/-- The dependency loop preserves the state invariant when its step
does. -/
theorem ldl_stinv_of (fs : String → Option String)
    (resolver : String → String → Option String)
    (step : String → LoadState → Except String LoadState)
    (hstep : ∀ path st st', StInv fs resolver st → step path st = .ok st' →
      StInv fs resolver st') :
    ∀ (deps : List String) (st st' : LoadState), StInv fs resolver st →
      load_deps step deps st = .ok st' → StInv fs resolver st' := by
  intro deps
  induction deps with
  | nil =>
    intro st st' hinv h
    simp [load_deps] at h
    rwa [← h]
  | cons d rest ih =>
    intro st st' hinv h
    rw [load_deps] at h
    cases hd : step d st with
    | error e => simp [hd] at h
    | ok stm =>
      simp [hd] at h
      exact ih stm st' (hstep _ _ _ hinv hd) h

/-- Preservation of the state invariant by load_module_recursive, by
induction on the fuel. -/
theorem lmr_stinv (fs : String → Option String)
    (resolver : String → String → Option String) :
    ∀ (fuel : Nat) (path : String) (st st' : LoadState),
      StInv fs resolver st →
      load_module_recursive fuel fs resolver path st = .ok st' →
        StInv fs resolver st' := by
  intro fuel
  induction fuel with
  | zero =>
    intro path st st' _ h
    simp [load_module_recursive] at h
  | succ n ihn =>
    intro path st st' hinv h
    rw [load_module_recursive] at h
    by_cases h1 : (lookupA st.modules path).isSome
    · simp [h1] at h
      rwa [← h]
    · by_cases h2 : path ∈ st.visiting
      · simp [h1, h2] at h
        rwa [← h]
      · simp [h1, h2] at h
        cases hfs : fs path with
        | none => simp [hfs] at h
        | some source =>
          simp [hfs] at h
          cases hld : load_deps (load_module_recursive n fs resolver)
              (depsOf resolver path source)
              { st with visiting := path :: st.visiting } with
          | error e => simp [hld] at h
          | ok st2 =>
            simp [hld] at h
            have h1n : lookupA st.modules path = none :=
              Option.not_isSome_iff_eq_none.mp h1
            have hinv1 : StInv fs resolver
                { st with visiting := path :: st.visiting } := by
              obtain ⟨i1, i2, i3, i4, i5, i6⟩ := hinv
              refine ⟨i1, i2, ?_, i4, i5, ?_⟩
              · intro p hp
                rcases List.mem_cons.mp hp with rfl | hp2
                · exact h1n
                · exact i3 p hp2
              · intro q m hq d hd
                rcases i6 q m hq d hd with h3 | h3
                · exact Or.inl h3
                · exact Or.inr (List.mem_cons_of_mem _ h3)
            have hinv2 := ldl_stinv_of fs resolver _ ihn _ _ _ hinv1 hld
            obtain ⟨v2, k2, m2, d2, o2⟩ :=
              ldl_shape_of _ (lmr_shape fs resolver n) _ _ _ hld
            simp at v2
            obtain ⟨j1, j2, j3, j4, j5, j6⟩ := hinv2
            have hp2none : lookupA st2.modules path = none :=
              j3 path (by rw [v2]; exact List.mem_cons_self _ _)
            have hpnotlo2 : path ∉ st2.load_order := by
              intro hmem
              have := (j2 path).mp hmem
              simp [hp2none] at this
            rw [← h]
            refine ⟨?_, ?_, ?_, ?_, ?_, ?_⟩
            · simp [List.nodup_append, j1]
              exact hpnotlo2
            · intro p
              by_cases hp : p = path
              · subst hp
                simp [lookupA_insertA_self]
              · simp only [List.mem_append, List.mem_singleton, hp,
                  or_false, lookupA_insertA_ne _ _ _ _ hp]
                exact j2 p
            · intro p hp
              simp only at hp
              rw [v2, List.erase_cons_head] at hp
              have hpp : p ≠ path := fun he => h2 (he ▸ hp)
              simp only [lookupA_insertA_ne _ _ _ _ hpp]
              exact j3 p (by rw [v2]; exact List.mem_cons_of_mem _ hp)
            · exact keys_nodup_insertA _ _ _ j4
            · intro q m hq
              by_cases hqp : q = path
              · subst hqp
                rw [lookupA_insertA_self] at hq
                cases hq
                exact ⟨rfl, hfs, rfl⟩
              · rw [lookupA_insertA_ne _ _ _ _ hqp] at hq
                exact j5 q m hq
            · intro q m hq d hd
              simp only
              have hvis' : (st2.visiting.erase path) = st.visiting := by
                rw [v2, List.erase_cons_head]
              rw [hvis']
              by_cases hqp : q = path
              · subst hqp
                rw [lookupA_insertA_self] at hq
                cases hq
                have hdl := ldl_deps_loaded _ (lmr_shape fs resolver n)
                  (fun p s s' => lmr_loaded n fs resolver p s s')
                  _ _ _ hld d hd
                rcases hdl with h3 | h3
                · exact Or.inl (isSome_insertA _ _ _ _ h3)
                · simp only at h3
                  rcases List.mem_cons.mp h3 with rfl | h4
                  · exact Or.inl (by simp [lookupA_insertA_self])
                  · exact Or.inr h4
              · rw [lookupA_insertA_ne _ _ _ _ hqp] at hq
                rcases j6 q m hq d hd with h3 | h3
                · exact Or.inl (isSome_insertA _ _ _ _ h3)
                · rw [v2] at h3
                  rcases List.mem_cons.mp h3 with rfl | h4
                  · exact Or.inl (by simp [lookupA_insertA_self])
                  · exact Or.inr h4

/-- The empty starting state satisfies the invariant. -/
theorem stinv_init (fs : String → Option String)
    (resolver : String → String → Option String) :
    StInv fs resolver { modules := [], load_order := [], visiting := [] } := by
  refine ⟨List.nodup_nil, ?_, ?_, List.nodup_nil, ?_, ?_⟩
  · intro p
    simp [lookupA]
  · intro p hp
    simp at hp
  · intro q m hq
    simp [lookupA] at hq
  · intro q m hq
    simp [lookupA] at hq

theorem set_visiting_self (st : LoadState) (h : st.visiting = []) :
    { st with visiting := [] } = st := by
  cases st
  simp_all

/-- The entry loop preserves the invariant and keeps the visiting set
empty between entries. -/
theorem load_entries_stinv (fuel : Nat) (fs : String → Option String)
    (resolver : String → String → Option String) (base_dir : String) :
    ∀ (aliases : List (String × String)) (st st' : LoadState),
      st.visiting = [] → StInv fs resolver st →
      load_entries fuel fs resolver base_dir aliases st = .ok st' →
      StInv fs resolver st' ∧ st'.visiting = [] := by
  intro aliases
  induction aliases with
  | nil =>
    intro st st' hv hinv h
    simp [load_entries] at h
    rw [← h]
    exact ⟨hinv, hv⟩
  | cons nv rest ih =>
    intro st st' hv hinv h
    obtain ⟨name, rel⟩ := nv
    rw [load_entries] at h
    cases hc : canonicalizeF fs (joinPath base_dir rel) with
    | none => simp [hc] at h
    | some canonical =>
      simp [hc] at h
      cases hm : load_module_recursive fuel fs resolver canonical
          { st with visiting := [] } with
      | error e => simp [hm] at h
      | ok stm =>
        simp [hm] at h
        rw [set_visiting_self st hv] at hm
        have hstm := lmr_stinv fs resolver fuel _ _ _ hinv hm
        have hvm : stm.visiting = [] := by
          rw [(lmr_shape fs resolver fuel _ _ _ hm).1, hv]
        exact ih stm st' hvm hstm h

/-- The entry loop preserves existing module-map entries and only
appends to the load order. -/
theorem load_entries_shape (fuel : Nat) (fs : String → Option String)
    (resolver : String → String → Option String) (base_dir : String) :
    ∀ (aliases : List (String × String)) (st st' : LoadState),
      st.visiting = [] →
      load_entries fuel fs resolver base_dir aliases st = .ok st' →
      (∀ q v, lookupA st.modules q = some v → lookupA st'.modules q = some v) ∧
      (∃ added, st'.load_order = st.load_order ++ added) := by
  intro aliases
  induction aliases with
  | nil =>
    intro st st' _ h
    simp [load_entries] at h
    rw [← h]
    exact ⟨fun q v hv => hv, [], by simp⟩
  | cons nv rest ih =>
    intro st st' hv h
    obtain ⟨name, rel⟩ := nv
    rw [load_entries] at h
    cases hc : canonicalizeF fs (joinPath base_dir rel) with
    | none => simp [hc] at h
    | some canonical =>
      simp [hc] at h
      cases hm : load_module_recursive fuel fs resolver canonical
          { st with visiting := [] } with
      | error e => simp [hm] at h
      | ok stm =>
        simp [hm] at h
        rw [set_visiting_self st hv] at hm
        obtain ⟨vm, km, mm, dm, om⟩ := lmr_shape fs resolver fuel _ _ _ hm
        have hvm : stm.visiting = [] := by rw [vm, hv]
        obtain ⟨hmono, ⟨ad2, had2⟩⟩ := ih stm st' hvm h
        refine ⟨fun q v hv2 => hmono q v (mm q v hv2), dm ++ ad2, ?_⟩
        rw [had2, om, List.append_assoc]

/-! ### Claim C5: singleton per file -/

/-- C5. Every canonical path occurs at most once in the recorded load
order of a successful bundling run, membership in the load order
matches membership in the module map, and the module-map keys are
unique, so a path reached through several specifiers or several alias
entry points has exactly one Module entry. The registry portion of the
emitted bundle defines one slot per load-order element (lines
128-140), hence also at most one slot per canonical path. -/
theorem C5_singleton_per_file (fuel : Nat) (fs : String → Option String)
    (base_dir : String) (aliases : List (String × String)) (st : LoadState)
    (h : bundle_graph fuel fs base_dir aliases = .ok st) :
    st.load_order.Nodup ∧
    (∀ p, p ∈ st.load_order ↔ (lookupA st.modules p).isSome) ∧
    (st.modules.map Prod.fst).Nodup := by
  have := load_entries_stinv fuel fs (create_resolver fs base_dir aliases)
    base_dir aliases _ st rfl
    (stinv_init fs (create_resolver fs base_dir aliases)) h
  exact ⟨this.1.1, this.1.2.1, this.1.2.2.2.1⟩

/-- Witness for C5 at a concrete one-module run. -/
theorem C5_singleton_per_file_witness :
    (["/w/a.js"] : List String).Nodup ∧
    (([("/w/a.js", Module.mk "/w/a.js" "" [])].map Prod.fst).Nodup) := by
  have h := C5_singleton_per_file 2
    (fun p => if p = "/w/a.js" then some "" else none) "/w"
    [("app", "a.js")]
    { modules := [("/w/a.js", Module.mk "/w/a.js" "" [])],
      load_order := ["/w/a.js"], visiting := [] }
    (by rfl)
  exact ⟨h.1, h.2.2⟩

/-! ### Reachability

The set of modules a successful run records is exactly the set of
paths reachable from the alias entry points through resolved
dependencies. -/

/-- Paths reachable from a list of root paths through the resolved
dependency relation. -/
inductive Reachable (fs : String → Option String)
    (resolver : String → String → Option String) (roots : List String) :
    String → Prop
  | entry (r : String) : r ∈ roots → Reachable fs resolver roots r
  | step (q : String) (src : String) (d : String) :
      Reachable fs resolver roots q → fs q = some src →
      d ∈ depsOf resolver q src → Reachable fs resolver roots d

/-- The dependency loop only adds modules satisfying a predicate that
holds of the dependencies, provided the step has the same property. -/
theorem ldl_reach_of (step : String → LoadState → Except String LoadState)
    (P : String → Prop)
    (hstep : ∀ path st st', P path → step path st = .ok st' →
      ∀ q, (lookupA st'.modules q).isSome →
        (lookupA st.modules q).isSome ∨ P q) :
    ∀ (deps : List String) (st st' : LoadState), (∀ d ∈ deps, P d) →
      load_deps step deps st = .ok st' →
      ∀ q, (lookupA st'.modules q).isSome →
        (lookupA st.modules q).isSome ∨ P q := by
  intro deps
  induction deps with
  | nil =>
    intro st st' _ h q hq
    simp [load_deps] at h
    rw [← h] at hq
    exact Or.inl hq
  | cons d rest ih =>
    intro st st' hP h q hq
    rw [load_deps] at h
    cases hd : step d st with
    | error e => simp [hd] at h
    | ok stm =>
      simp [hd] at h
      rcases ih stm st' (fun x hx => hP x (List.mem_cons_of_mem _ hx)) h q hq
        with h2 | h2
      · exact hstep d st stm (hP d (List.mem_cons_self _ _)) hd q h2
      · exact Or.inr h2

/-- Every module added by a call on a path satisfying a
dependency-closed predicate satisfies the predicate. -/
theorem lmr_reach (fs : String → Option String)
    (resolver : String → String → Option String) (P : String → Prop)
    (hcl : ∀ q src, fs q = some src → P q →
      ∀ d ∈ depsOf resolver q src, P d) :
    ∀ (fuel : Nat) (path : String) (st st' : LoadState), P path →
      load_module_recursive fuel fs resolver path st = .ok st' →
      ∀ q, (lookupA st'.modules q).isSome →
        (lookupA st.modules q).isSome ∨ P q := by
  intro fuel
  induction fuel with
  | zero =>
    intro path st st' _ h
    simp [load_module_recursive] at h
  | succ n ihn =>
    intro path st st' hP h q hq
    rw [load_module_recursive] at h
    by_cases h1 : (lookupA st.modules path).isSome
    · simp [h1] at h
      rw [← h] at hq
      exact Or.inl hq
    · by_cases h2 : path ∈ st.visiting
      · simp [h1, h2] at h
        rw [← h] at hq
        exact Or.inl hq
      · simp [h1, h2] at h
        cases hfs : fs path with
        | none => simp [hfs] at h
        | some source =>
          simp [hfs] at h
          cases hld : load_deps (load_module_recursive n fs resolver)
              (depsOf resolver path source)
              { st with visiting := path :: st.visiting } with
          | error e => simp [hld] at h
          | ok st2 =>
            simp [hld] at h
            rw [← h] at hq
            simp only at hq
            by_cases hqp : q = path
            · exact Or.inr (hqp ▸ hP)
            · rw [lookupA_insertA_ne _ _ _ _ hqp] at hq
              exact ldl_reach_of _ P (fun p s s' hp hs => ihn p s s' hp hs)
                _ _ _ (hcl path source hfs hP) hld q hq

/-- In a dependency-closed state with an empty visiting set, every
path reachable from loaded roots is loaded. -/
theorem reachable_in_modules (fs : String → Option String)
    (resolver : String → String → Option String) (roots : List String)
    (st : LoadState) (hinv : StInv fs resolver st) (hvis : st.visiting = [])
    (hroots : ∀ r ∈ roots, (lookupA st.modules r).isSome) :
    ∀ p, Reachable fs resolver roots p → (lookupA st.modules p).isSome := by
  intro p hp
  induction hp with
  | entry r hr => exact hroots r hr
  | step q src d _ hfs hd ih =>
    obtain ⟨m, hm⟩ := Option.isSome_iff_exists.mp ih
    obtain ⟨_, hsrc, hdeps⟩ := hinv.2.2.2.2.1 q m hm
    have hsame : src = m.source := by
      rw [hfs] at hsrc
      exact Option.some_inj.mp hsrc
    have hdm : d ∈ m.dependencies := by
      rw [hdeps, ← hsame]
      exact hd
    rcases hinv.2.2.2.2.2 q m hm d hdm with h3 | h3
    · exact h3
    · rw [hvis] at h3
      simp at h3

/-- The canonical entry paths of an alias list. -/
def entryRoots (fs : String → Option String) (base_dir : String)
    (aliases : List (String × String)) : List String :=
  aliases.filterMap fun nv => canonicalizeF fs (joinPath base_dir nv.2)

/-- The entry loop only adds modules satisfying a dependency-closed
predicate that holds of every canonicalized entry. -/
theorem load_entries_reach (fuel : Nat) (fs : String → Option String)
    (resolver : String → String → Option String) (base_dir : String)
    (P : String → Prop)
    (hcl : ∀ q src, fs q = some src → P q →
      ∀ d ∈ depsOf resolver q src, P d) :
    ∀ (aliases : List (String × String)) (st st' : LoadState),
      st.visiting = [] →
      (∀ nv ∈ aliases, ∀ c,
        canonicalizeF fs (joinPath base_dir nv.2) = some c → P c) →
      load_entries fuel fs resolver base_dir aliases st = .ok st' →
      ∀ q, (lookupA st'.modules q).isSome →
        (lookupA st.modules q).isSome ∨ P q := by
  intro aliases
  induction aliases with
  | nil =>
    intro st st' _ _ h q hq
    simp [load_entries] at h
    rw [← h] at hq
    exact Or.inl hq
  | cons nv rest ih =>
    intro st st' hv hroots h q hq
    obtain ⟨name, rel⟩ := nv
    rw [load_entries] at h
    cases hc : canonicalizeF fs (joinPath base_dir rel) with
    | none => simp [hc] at h
    | some canonical =>
      simp [hc] at h
      cases hm : load_module_recursive fuel fs resolver canonical
          { st with visiting := [] } with
      | error e => simp [hm] at h
      | ok stm =>
        simp [hm] at h
        rw [set_visiting_self st hv] at hm
        have hvm : stm.visiting = [] := by
          rw [(lmr_shape fs resolver fuel _ _ _ hm).1, hv]
        have hPc : P canonical :=
          hroots (name, rel) (List.mem_cons_self _ _) canonical hc
        rcases ih stm st' hvm
            (fun x hx c hcx => hroots x (List.mem_cons_of_mem _ hx) c hcx)
            h q hq with h2 | h2
        · exact lmr_reach fs resolver P hcl fuel canonical st stm hPc hm q h2
        · exact Or.inr h2

/-- After a successful entry loop, every canonicalized entry target of
the processed aliases is loaded. -/
theorem load_entries_loaded (fuel : Nat) (fs : String → Option String)
    (resolver : String → String → Option String) (base_dir : String) :
    ∀ (aliases : List (String × String)) (st st' : LoadState),
      st.visiting = [] →
      load_entries fuel fs resolver base_dir aliases st = .ok st' →
      ∀ nv ∈ aliases, ∀ c,
        canonicalizeF fs (joinPath base_dir nv.2) = some c →
        (lookupA st'.modules c).isSome := by
  intro aliases
  induction aliases with
  | nil =>
    intro st st' _ _ nv hnv
    simp at hnv
  | cons nv0 rest ih =>
    intro st st' hv h nv hnv c hc
    obtain ⟨name, rel⟩ := nv0
    rw [load_entries] at h
    cases hc0 : canonicalizeF fs (joinPath base_dir rel) with
    | none => simp [hc0] at h
    | some canonical =>
      simp [hc0] at h
      cases hm : load_module_recursive fuel fs resolver canonical
          { st with visiting := [] } with
      | error e => simp [hm] at h
      | ok stm =>
        simp [hm] at h
        rw [set_visiting_self st hv] at hm
        have hvm : stm.visiting = [] := by
          rw [(lmr_shape fs resolver fuel _ _ _ hm).1, hv]
        rcases List.mem_cons.mp hnv with rfl | hnvr
        · have hcc : c = canonical := by
            rw [hc0] at hc
            exact (Option.some_inj.mp hc).symm
          subst hcc
          have hs := lmr_loaded fuel fs resolver c st stm (by simp [hv]) hm
          obtain ⟨v, hv2⟩ := Option.isSome_iff_exists.mp hs
          have := (load_entries_shape fuel fs resolver base_dir rest stm st'
            hvm h).1 c v hv2
          simp [this]
        · exact ih stm st' hvm h nv hnvr c hc

/-- Membership in the load order of a successful run is exactly
reachability from the canonicalized alias entry points. -/
theorem bundle_graph_mem_iff (fuel : Nat) (fs : String → Option String)
    (base_dir : String) (aliases : List (String × String)) (st : LoadState)
    (h : bundle_graph fuel fs base_dir aliases = .ok st) :
    ∀ p, p ∈ st.load_order ↔
      Reachable fs (create_resolver fs base_dir aliases)
        (entryRoots fs base_dir aliases) p := by
  set resolver := create_resolver fs base_dir aliases with hres
  have hstinv := load_entries_stinv fuel fs resolver base_dir aliases _ st rfl
    (stinv_init fs resolver) h
  intro p
  constructor
  · intro hp
    have hsome := (hstinv.1.2.1 p).mp hp
    have := load_entries_reach fuel fs resolver base_dir
      (Reachable fs resolver (entryRoots fs base_dir aliases))
      (fun q src hq hr d hd => Reachable.step q src d hr hq hd)
      aliases _ st rfl
      (fun nv hnv c hc => Reachable.entry c
        (List.mem_filterMap.mpr ⟨nv, hnv, hc⟩))
      h p hsome
    rcases this with h2 | h2
    · simp [lookupA] at h2
    · exact h2
  · intro hp
    have hsome := reachable_in_modules fs resolver
      (entryRoots fs base_dir aliases) st hstinv.1 hstinv.2 ?_ p hp
    · exact (hstinv.1.2.1 p).mpr hsome
    · intro r hr
      obtain ⟨nv, hnv, hc⟩ := List.mem_filterMap.mp hr
      exact load_entries_loaded fuel fs resolver base_dir aliases _ st rfl
        h nv hnv r hc

/-! ### Permutation and congruence lemmas for determinism analysis -/

theorem lookupA_cons (kv : String × α) (t : List (String × α)) (k : String) :
    lookupA (kv :: t) k = if kv.1 = k then some kv.2 else lookupA t k := by
  obtain ⟨k', v⟩ := kv
  rfl

/-- Lookup in an association list with unique keys is invariant under
permutation of the list. -/
theorem lookupA_perm (l1 l2 : List (String × α)) (hperm : l1.Perm l2)
    (hnd : (l1.map Prod.fst).Nodup) (k : String) :
    lookupA l1 k = lookupA l2 k := by
  induction hperm with
  | nil => rfl
  | cons x _ ih =>
    rw [List.map_cons, List.nodup_cons] at hnd
    simp [lookupA_cons, ih hnd.2]
  | swap x y l =>
    rw [List.map_cons, List.map_cons, List.nodup_cons] at hnd
    have hne : y.1 ≠ x.1 := by
      intro he
      exact hnd.1 (by rw [he]; exact List.mem_cons_self _ _)
    by_cases h1 : x.1 = k
    · have h2 : y.1 ≠ k := fun he => hne (he.trans h1.symm)
      simp [lookupA_cons, h1, h2]
    · by_cases h2 : y.1 = k
      · simp [lookupA_cons, h1, h2]
      · simp [lookupA_cons, h1, h2]
  | trans h12 _ ih1 ih2 =>
    rw [ih1 hnd]
    exact ih2 ((h12.map Prod.fst).nodup_iff.mp hnd)

/-- The keys of the canonicalized alias list form a sublist of the
alias-table keys. -/
theorem alias_pairs_keys_sublist (fs : String → Option String)
    (base_dir : String) (aliases : List (String × String)) :
    ((alias_pairs fs base_dir aliases).map Prod.fst).Sublist
      (aliases.map Prod.fst) := by
  induction aliases with
  | nil => simp [alias_pairs]
  | cons nv rest ih =>
    obtain ⟨name, rel⟩ := nv
    simp only [alias_pairs, List.filterMap_cons]
    cases hc : canonicalizeF fs (joinPath base_dir rel) with
    | none =>
      simp only [List.map_cons]
      exact (ih.trans (List.sublist_cons_self _ _))
    | some c =>
      simp only [List.map_cons]
      exact ih.cons₂ name

/-- Permutations of the alias table give permuted alias pairs. -/
theorem alias_pairs_perm (fs : String → Option String) (base_dir : String)
    (l1 l2 : List (String × String)) (hperm : l1.Perm l2) :
    (alias_pairs fs base_dir l1).Perm (alias_pairs fs base_dir l2) :=
  hperm.filterMap _

/-- Permutations of the alias table give permuted entry roots. -/
theorem entryRoots_perm (fs : String → Option String) (base_dir : String)
    (l1 l2 : List (String × String)) (hperm : l1.Perm l2) :
    (entryRoots fs base_dir l1).Perm (entryRoots fs base_dir l2) :=
  hperm.filterMap _

/-- Two resolvers over pointwise-equal alias lists agree. -/
theorem oxc_resolve_congr (a1 a2 : List (String × String))
    (exts : List String) (fs : String → Option String)
    (h : ∀ k, lookupA a1 k = lookupA a2 k) (dir spec : String) :
    oxc_resolve a1 exts fs dir spec = oxc_resolve a2 exts fs dir spec := by
  unfold oxc_resolve
  rw [h spec]

/-- Dependency lists agree for pointwise-equal resolvers. -/
theorem depsOf_congr (r1 r2 : String → String → Option String)
    (h : ∀ dir spec, r1 dir spec = r2 dir spec) (p src : String) :
    depsOf r1 p src = depsOf r2 p src := by
  unfold depsOf resolve_import
  exact List.filterMap_congr (fun a _ => h (parentDir p) a)

/-- Reachability transfers along pointwise-equal resolvers and
root lists with the same members. -/
theorem reachable_congr (fs : String → Option String)
    (r1 r2 : String → String → Option String)
    (roots1 roots2 : List String)
    (hr : ∀ dir spec, r1 dir spec = r2 dir spec)
    (hroots : ∀ x, x ∈ roots1 → x ∈ roots2) (p : String)
    (hp : Reachable fs r1 roots1 p) : Reachable fs r2 roots2 p := by
  induction hp with
  | entry r hrr => exact Reachable.entry r (hroots r hrr)
  | step q src d _ hfs hd ih =>
    exact Reachable.step q src d ih hfs
      (by rw [← depsOf_congr r1 r2 hr]; exact hd)

/-- Two lists without duplicates and with the same members are
permutations of each other. -/
theorem perm_of_nodup_mem_iff (l1 l2 : List String) (h1 : l1.Nodup)
    (h2 : l2.Nodup) (hmem : ∀ a, a ∈ l1 ↔ a ∈ l2) : l1.Perm l2 := by
  refine List.perm_iff_count.mpr fun a => ?_
  by_cases ha : a ∈ l1
  · rw [List.count_eq_one_of_mem h1 ha,
      List.count_eq_one_of_mem h2 ((hmem a).mp ha)]
  · rw [List.count_eq_zero_of_not_mem ha,
      List.count_eq_zero_of_not_mem (fun hb => ha ((hmem a).mpr hb))]

/-! ### Concrete filesystems used by the claim instances -/

/-- One readable file with empty source. -/
def fs_single : String → Option String := fun p =>
  if p = "/w/a.js" then some "" else none

/-- Two independent modules, no imports. -/
def fs_two : String → Option String := fun p =>
  if p = "/proj/a.js" then some "export const a = 1;"
  else if p = "/proj/b.js" then some "export const b = 2;"
  else none

/-- Two modules importing each other (an import cycle). -/
def fs_cycle : String → Option String := fun p =>
  if p = "/proj/a.js" then some "import \x7b b \x7d from \x22b.js\x22\nexport const a = 1;"
  else if p = "/proj/b.js" then some "import \x7b a \x7d from \x22a.js\x22\nexport const b = 2;"
  else none

/-! ### Claim C3: determinism of bundling -/

set_option maxRecDepth 100000 in
/-- C3 counterexample. The Rust code iterates the alias HashMap, whose
iteration order is not a function of the table contents; the two alias
lists below are permutations of each other, hence denote the same
alias table, yet the two runs record different global load orders and
emit different bundle texts. -/
theorem C3_counterexample :
    ([("a", "a.js"), ("b", "b.js")] : List (String × String)).Perm
      [("b", "b.js"), ("a", "a.js")] ∧
    (bundle_graph 10 fs_two "/proj" [("a", "a.js"), ("b", "b.js")]).map
      (fun st => st.load_order) = .ok ["/proj/a.js", "/proj/b.js"] ∧
    (bundle_graph 10 fs_two "/proj" [("b", "b.js"), ("a", "a.js")]).map
      (fun st => st.load_order) = .ok ["/proj/b.js", "/proj/a.js"] ∧
    (["/proj/a.js", "/proj/b.js"] : List String) ≠
      ["/proj/b.js", "/proj/a.js"] ∧
    (bundle_modules 10 fs_two "/proj" [("a", "a.js"), ("b", "b.js")]).toOption ≠
      (bundle_modules 10 fs_two "/proj" [("b", "b.js"), ("a", "a.js")]).toOption := by
  refine ⟨by decide, by rfl, by rfl, by decide, by decide⟩

/-- C3 amended. Bundling is deterministic only up to the alias
iteration order: the emitted output is a function of the alias list in
iteration order, the base directory and the filesystem, and two
successful runs over permuted alias lists of the same table bundle the
same set of modules (their load orders are permutations of each
other), but the order itself, and hence the bundle text, may differ,
as the counterexample shows. -/
theorem C3_amended_load_order_perm (fuel1 fuel2 : Nat)
    (fs : String → Option String) (base_dir : String)
    (l1 l2 : List (String × String)) (st1 st2 : LoadState)
    (hperm : l1.Perm l2) (hnd : (l1.map Prod.fst).Nodup)
    (h1 : bundle_graph fuel1 fs base_dir l1 = .ok st1)
    (h2 : bundle_graph fuel2 fs base_dir l2 = .ok st2) :
    st1.load_order.Perm st2.load_order := by
  have hkeys1 : ((alias_pairs fs base_dir l1).map Prod.fst).Nodup :=
    (alias_pairs_keys_sublist fs base_dir l1).nodup hnd
  have hlook : ∀ k, lookupA (alias_pairs fs base_dir l1) k =
      lookupA (alias_pairs fs base_dir l2) k :=
    lookupA_perm _ _ (alias_pairs_perm fs base_dir l1 l2 hperm) hkeys1
  have hres : ∀ dir spec, create_resolver fs base_dir l1 dir spec =
      create_resolver fs base_dir l2 dir spec := fun dir spec =>
    oxc_resolve_congr _ _ _ fs hlook dir spec
  have hroots12 : ∀ x, x ∈ entryRoots fs base_dir l1 →
      x ∈ entryRoots fs base_dir l2 := fun x hx =>
    (entryRoots_perm fs base_dir l1 l2 hperm).mem_iff.mp hx
  have hroots21 : ∀ x, x ∈ entryRoots fs base_dir l2 →
      x ∈ entryRoots fs base_dir l1 := fun x hx =>
    (entryRoots_perm fs base_dir l1 l2 hperm).mem_iff.mpr hx
  have hm1 := bundle_graph_mem_iff fuel1 fs base_dir l1 st1 h1
  have hm2 := bundle_graph_mem_iff fuel2 fs base_dir l2 st2 h2
  have hnd1 := (load_entries_stinv fuel1 fs (create_resolver fs base_dir l1)
    base_dir l1 _ st1 rfl (stinv_init _ _) h1).1.1
  have hnd2 := (load_entries_stinv fuel2 fs (create_resolver fs base_dir l2)
    base_dir l2 _ st2 rfl (stinv_init _ _) h2).1.1
  refine perm_of_nodup_mem_iff _ _ hnd1 hnd2 fun p => ?_
  rw [hm1 p, hm2 p]
  constructor
  · intro hp
    exact reachable_congr fs _ _ _ _ hres hroots12 p hp
  · intro hp
    exact reachable_congr fs _ _ _ _ (fun d s => (hres d s).symm) hroots21 p hp

/-- Witness for the amended C3 at a concrete run. -/
theorem C3_amended_load_order_perm_witness :
    (["/w/a.js"] : List String).Perm ["/w/a.js"] :=
  C3_amended_load_order_perm 2 2 fs_single "/w"
    [("app", "a.js")] [("app", "a.js")]
    { modules := [("/w/a.js", Module.mk "/w/a.js" "" [])],
      load_order := ["/w/a.js"], visiting := [] }
    { modules := [("/w/a.js", Module.mk "/w/a.js" "" [])],
      load_order := ["/w/a.js"], visiting := [] }
    (by decide) (by decide) (by rfl) (by rfl)

/-! ### Topological ordering of the load order (acyclic case) -/

/-- The load-order invariant: every recorded module is in the load
order, and each of its recorded dependencies appears strictly before
it. -/
def TopoInv (st : LoadState) : Prop :=
  ∀ q m, lookupA st.modules q = some m → q ∈ st.load_order ∧
    ∀ d ∈ m.dependencies, d ∈ st.load_order ∧
      st.load_order.indexOf d < st.load_order.indexOf q

/-- The dependency loop preserves the load-order invariant when its
step does, given a rank certificate for acyclicity. -/
theorem ldl_rank_of (fs : String → Option String)
    (resolver : String → String → Option String) (rank : String → Nat)
    (step : String → LoadState → Except String LoadState)
    (hshape : ∀ p st st', step p st = .ok st' → LmrOk st st')
    (hstinv : ∀ p st st', StInv fs resolver st → step p st = .ok st' →
      StInv fs resolver st')
    (hstep : ∀ p st st', (∀ v ∈ st.visiting, rank p < rank v) →
      StInv fs resolver st → TopoInv st → step p st = .ok st' → TopoInv st') :
    ∀ (deps : List String) (st st' : LoadState),
      (∀ d ∈ deps, ∀ v ∈ st.visiting, rank d < rank v) →
      StInv fs resolver st → TopoInv st →
      load_deps step deps st = .ok st' → TopoInv st' := by
  intro deps
  induction deps with
  | nil =>
    intro st st' _ _ htopo h
    simp [load_deps] at h
    rwa [← h]
  | cons d rest ih =>
    intro st st' hv hinv htopo h
    rw [load_deps] at h
    cases hd : step d st with
    | error e => simp [hd] at h
    | ok stm =>
      simp [hd] at h
      have hvm := (hshape d st stm hd).1
      exact ih stm st'
        (fun x hx v hv2 => hv x (List.mem_cons_of_mem _ hx) v (hvm ▸ hv2))
        (hstinv d st stm hinv hd)
        (hstep d st stm (hv d (List.mem_cons_self _ _)) hinv htopo hd) h

/-- With a rank function certifying that resolved dependencies always
decrease, the traversal preserves the load-order invariant: the
visiting check never skips a resolved dependency, so every dependency
is recorded before its dependent. -/
theorem lmr_rank (fs : String → Option String)
    (resolver : String → String → Option String) (rank : String → Nat)
    (hrank : ∀ q src, fs q = some src →
      ∀ d ∈ depsOf resolver q src, rank d < rank q) :
    ∀ (fuel : Nat) (path : String) (st st' : LoadState),
      (∀ v ∈ st.visiting, rank path < rank v) →
      StInv fs resolver st → TopoInv st →
      load_module_recursive fuel fs resolver path st = .ok st' →
      TopoInv st' := by
  intro fuel
  induction fuel with
  | zero =>
    intro path st st' _ _ _ h
    simp [load_module_recursive] at h
  | succ n ihn =>
    intro path st st' hvis hinv htopo h
    rw [load_module_recursive] at h
    by_cases h1 : (lookupA st.modules path).isSome
    · simp [h1] at h
      rwa [← h]
    · by_cases h2 : path ∈ st.visiting
      · simp [h1, h2] at h
        rwa [← h]
      · simp [h1, h2] at h
        cases hfs : fs path with
        | none => simp [hfs] at h
        | some source =>
          simp [hfs] at h
          cases hld : load_deps (load_module_recursive n fs resolver)
              (depsOf resolver path source)
              { st with visiting := path :: st.visiting } with
          | error e => simp [hld] at h
          | ok st2 =>
            simp [hld] at h
            have h1n : lookupA st.modules path = none :=
              Option.not_isSome_iff_eq_none.mp h1
            have hinv1 : StInv fs resolver
                { st with visiting := path :: st.visiting } := by
              obtain ⟨i1, i2, i3, i4, i5, i6⟩ := hinv
              refine ⟨i1, i2, ?_, i4, i5, ?_⟩
              · intro p hp
                rcases List.mem_cons.mp hp with rfl | hp2
                · exact h1n
                · exact i3 p hp2
              · intro q m hq d hd
                rcases i6 q m hq d hd with h3 | h3
                · exact Or.inl h3
                · exact Or.inr (List.mem_cons_of_mem _ h3)
            have hdeps_rank : ∀ d ∈ depsOf resolver path source,
                ∀ v ∈ (path :: st.visiting), rank d < rank v := by
              intro d hd v hv
              rcases List.mem_cons.mp hv with rfl | hv2
              · exact hrank _ source hfs d hd
              · exact Nat.lt_trans (hrank path source hfs d hd) (hvis v hv2)
            have htopo2 := ldl_rank_of fs resolver rank _
              (lmr_shape fs resolver n)
              (fun p s s' => lmr_stinv fs resolver n p s s')
              (fun p s s' => ihn p s s')
              _ _ _ hdeps_rank hinv1 htopo hld
            have hinv2 := ldl_stinv_of fs resolver _
              (fun p s s' => lmr_stinv fs resolver n p s s') _ _ _ hinv1 hld
            obtain ⟨v2, _, _, _, _⟩ :=
              ldl_shape_of _ (lmr_shape fs resolver n) _ _ _ hld
            simp at v2
            have hp2none : lookupA st2.modules path = none :=
              hinv2.2.2.1 path (by rw [v2]; exact List.mem_cons_self _ _)
            have hpnotlo2 : path ∉ st2.load_order := by
              intro hmem
              have := (hinv2.2.1 path).mp hmem
              simp [hp2none] at this
            have hidxpath : (st2.load_order ++ [path]).indexOf path =
                st2.load_order.length := by
              rw [List.indexOf_append_of_not_mem hpnotlo2]
              simp
            rw [← h]
            intro q m hq
            simp only at hq ⊢
            by_cases hqp : q = path
            · subst hqp
              rw [lookupA_insertA_self] at hq
              cases hq
              refine ⟨by simp, ?_⟩
              intro d hd
              have hdl := ldl_deps_loaded _ (lmr_shape fs resolver n)
                (fun p s s' => lmr_loaded n fs resolver p s s')
                _ _ _ hld d hd
              have hdsome : (lookupA st2.modules d).isSome := by
                rcases hdl with h3 | h3
                · exact h3
                · exfalso
                  simp only at h3
                  rcases List.mem_cons.mp h3 with rfl | h4
                  · exact Nat.lt_irrefl _ (hrank _ source hfs _ hd)
                  · exact Nat.lt_irrefl _
                      (Nat.lt_trans (hrank _ source hfs d hd) (hvis d h4))
              have hdlo2 : d ∈ st2.load_order := (hinv2.2.1 d).mpr hdsome
              refine ⟨List.mem_append_left _ hdlo2, ?_⟩
              rw [hidxpath, List.indexOf_append_of_mem hdlo2]
              exact List.indexOf_lt_length.mpr hdlo2
            · rw [lookupA_insertA_ne _ _ _ _ hqp] at hq
              obtain ⟨hqlo, hqd⟩ := htopo2 q m hq
              refine ⟨List.mem_append_left _ hqlo, ?_⟩
              intro d hd
              obtain ⟨hdlo, hdidx⟩ := hqd d hd
              refine ⟨List.mem_append_left _ hdlo, ?_⟩
              rw [List.indexOf_append_of_mem hdlo,
                List.indexOf_append_of_mem hqlo]
              exact hdidx

/-- The entry loop preserves the load-order invariant under a rank
certificate. -/
theorem load_entries_rank (fuel : Nat) (fs : String → Option String)
    (resolver : String → String → Option String) (base_dir : String)
    (rank : String → Nat)
    (hrank : ∀ q src, fs q = some src →
      ∀ d ∈ depsOf resolver q src, rank d < rank q) :
    ∀ (aliases : List (String × String)) (st st' : LoadState),
      st.visiting = [] → StInv fs resolver st → TopoInv st →
      load_entries fuel fs resolver base_dir aliases st = .ok st' →
      TopoInv st' := by
  intro aliases
  induction aliases with
  | nil =>
    intro st st' _ _ htopo h
    simp [load_entries] at h
    rwa [← h]
  | cons nv rest ih =>
    intro st st' hv hinv htopo h
    obtain ⟨name, rel⟩ := nv
    rw [load_entries] at h
    cases hc : canonicalizeF fs (joinPath base_dir rel) with
    | none => simp [hc] at h
    | some canonical =>
      simp [hc] at h
      cases hm : load_module_recursive fuel fs resolver canonical
          { st with visiting := [] } with
      | error e => simp [hm] at h
      | ok stm =>
        simp [hm] at h
        rw [set_visiting_self st hv] at hm
        have hvm : stm.visiting = [] := by
          rw [(lmr_shape fs resolver fuel _ _ _ hm).1, hv]
        exact ih stm st' hvm (lmr_stinv fs resolver fuel _ _ _ hinv hm)
          (lmr_rank fs resolver rank hrank fuel canonical st stm
            (by simp [hv]) hinv htopo hm) h

/-! ### Claim C1: the load-order invariant -/

set_option maxRecDepth 100000 in
/-- C1 counterexample. In the cyclic two-module filesystem, the run
from entry a.js records module b.js with resolved dependency a.js, yet
a.js appears after b.js in the emitted load order, so the invariant
fails on the cycle-closing edge. -/
theorem C1_counterexample :
    (bundle_graph 10 fs_cycle "/proj" [("app", "a.js")]).map (fun st =>
      (st.load_order,
       (lookupA st.modules "/proj/b.js").map Module.dependencies)) =
      .ok (["/proj/b.js", "/proj/a.js"], some ["/proj/a.js"]) ∧
    ¬ ((["/proj/b.js", "/proj/a.js"] : List String).indexOf "/proj/a.js" <
       (["/proj/b.js", "/proj/a.js"] : List String).indexOf "/proj/b.js") := by
  exact ⟨by rfl, by decide⟩

/-- C1 amended. For every module M recorded in the final graph and
every resolved dependency D in M's recorded dependency list, D appears
before M in the emitted load order, provided the resolved dependency
graph is acyclic (certified by a rank function strictly decreasing
along resolved dependencies). With an import cycle the cycle-closing
back edge is skipped by the visiting check and the invariant can fail
for exactly that edge, as the counterexample shows. -/
theorem C1_amended_load_order_invariant (fuel : Nat)
    (fs : String → Option String) (base_dir : String)
    (aliases : List (String × String)) (st : LoadState)
    (rank : String → Nat)
    (hrank : ∀ q src, fs q = some src →
      ∀ d ∈ depsOf (create_resolver fs base_dir aliases) q src,
        rank d < rank q)
    (h : bundle_graph fuel fs base_dir aliases = .ok st) :
    ∀ M m, lookupA st.modules M = some m → ∀ D ∈ m.dependencies,
      D ∈ st.load_order ∧ M ∈ st.load_order ∧
      st.load_order.indexOf D < st.load_order.indexOf M := by
  have htopo := load_entries_rank fuel fs
    (create_resolver fs base_dir aliases) base_dir rank hrank aliases
    _ st rfl (stinv_init _ _) (fun q m hq => by simp [lookupA] at hq) h
  intro M m hm D hD
  obtain ⟨hMlo, hdeps⟩ := htopo M m hm
  exact ⟨(hdeps D hD).1, hMlo, (hdeps D hD).2⟩

/-- An acyclic two-module filesystem: main.js imports lib.js. -/
def fs_chain : String → Option String := fun p =>
  if p = "/c/main.js" then some "import \x7b v \x7d from \x22lib.js\x22"
  else if p = "/c/lib.js" then some "export const v = 1;"
  else none

/-- Rank certificate for fs_chain: the importing module sits above the
imported one. -/
def rank_chain : String → Nat := fun p =>
  if p = "/c/main.js" then 1 else 0

theorem rank_chain_decreases : ∀ q src, fs_chain q = some src →
    ∀ d ∈ depsOf (create_resolver fs_chain "/c" [("app", "main.js")]) q src,
      rank_chain d < rank_chain q := by
  intro q src hq d hd
  by_cases h1 : q = "/c/main.js"
  · subst h1
    have hsrc := Option.some_inj.mp
      ((by rfl : fs_chain "/c/main.js" =
        some "import \x7b v \x7d from \x22lib.js\x22").symm.trans hq)
    subst hsrc
    have hdeps : depsOf (create_resolver fs_chain "/c" [("app", "main.js")])
        "/c/main.js" "import \x7b v \x7d from \x22lib.js\x22" =
        ["/c/lib.js"] := by rfl
    rw [hdeps] at hd
    simp at hd
    subst hd
    decide
  · by_cases h2 : q = "/c/lib.js"
    · subst h2
      have hsrc := Option.some_inj.mp
        ((by rfl : fs_chain "/c/lib.js" =
          some "export const v = 1;").symm.trans hq)
      subst hsrc
      have hdeps : depsOf (create_resolver fs_chain "/c" [("app", "main.js")])
          "/c/lib.js" "export const v = 1;" = [] := by rfl
      rw [hdeps] at hd
      simp at hd
    · simp [fs_chain, h1, h2] at hq

/-- Witness for the amended C1 at the acyclic instance. -/
theorem C1_amended_load_order_invariant_witness :
    ("/c/lib.js" : String) ∈ (["/c/lib.js", "/c/main.js"] : List String) ∧
    (["/c/lib.js", "/c/main.js"] : List String).indexOf "/c/lib.js" <
      (["/c/lib.js", "/c/main.js"] : List String).indexOf "/c/main.js" := by
  have h := C1_amended_load_order_invariant 4 fs_chain "/c"
    [("app", "main.js")]
    { modules :=
        [("/c/lib.js",
          Module.mk "/c/lib.js" "export const v = 1;" []),
         ("/c/main.js",
          Module.mk "/c/main.js" "import \x7b v \x7d from \x22lib.js\x22"
            ["/c/lib.js"])],
      load_order := ["/c/lib.js", "/c/main.js"], visiting := [] }
    rank_chain rank_chain_decreases (by rfl)
    "/c/main.js"
    (Module.mk "/c/main.js" "import \x7b v \x7d from \x22lib.js\x22"
      ["/c/lib.js"])
    (by rfl) "/c/lib.js" (by decide)
  exact ⟨h.1, h.2.2⟩

/-! ### Claim C4: cycle tolerance -/

/-- C4. For every pair of readable modules that import each other (the
resolved dependency list of each is exactly the other), bundling from
an alias entry pointing at the first module terminates for every
sufficient recursion depth, completes without error, and each of the
two modules appears exactly once in the recorded load order: the
second visit of the entry module hits the visiting check and is
skipped silently instead of recursing. -/
theorem C4_cycle_tolerance (fuel : Nat) (fs : String → Option String)
    (base_dir name rel pA pB srcA srcB : String)
    (hne : pA ≠ pB)
    (hj : joinPath base_dir rel = pA)
    (hA : fs pA = some srcA) (hB : fs pB = some srcB)
    (hdA : depsOf (create_resolver fs base_dir [(name, rel)]) pA srcA = [pB])
    (hdB : depsOf (create_resolver fs base_dir [(name, rel)]) pB srcB = [pA]) :
    bundle_graph (fuel + 3) fs base_dir [(name, rel)] = .ok
      { modules := [(pB, Module.mk pB srcB [pA]), (pA, Module.mk pA srcA [pB])],
        load_order := [pB, pA], visiting := [] } ∧
    ([pB, pA].count pA = 1 ∧ [pB, pA].count pB = 1) ∧
    bundle_modules (fuel + 3) fs base_dir [(name, rel)] = .ok
      (emit_bundle fs base_dir [(name, rel)]
        { modules :=
            [(pB, Module.mk pB srcB [pA]), (pA, Module.mk pA srcA [pB])],
          load_order := [pB, pA], visiting := [] }) := by
  set resolver := create_resolver fs base_dir [(name, rel)] with hres
  have hne' : pB ≠ pA := Ne.symm hne
  have hcan : canonicalizeF fs (joinPath base_dir rel) = some pA := by
    simp [canonicalizeF, hj, hA]
  have hin : load_module_recursive (fuel + 1) fs resolver pA
      { modules := [], load_order := [], visiting := [pB, pA] } = .ok
      { modules := [], load_order := [], visiting := [pB, pA] } := by
    rw [load_module_recursive]
    simp [lookupA]
  have hdeps1 : load_deps (load_module_recursive (fuel + 1) fs resolver) [pA]
      { modules := [], load_order := [], visiting := [pB, pA] } = .ok
      { modules := [], load_order := [], visiting := [pB, pA] } := by
    rw [load_deps, hin]
    rfl
  have hstepB : load_module_recursive (fuel + 2) fs resolver pB
      { modules := [], load_order := [], visiting := [pA] } = .ok
      { modules := [(pB, Module.mk pB srcB [pA])], load_order := [pB],
        visiting := [pA] } := by
    rw [load_module_recursive]
    simp only [lookupA, Option.isSome_none, Bool.false_eq_true, if_false,
      List.mem_singleton, hne', if_true, hB, hdB]
    rw [hdeps1]
    simp [insertA, List.erase_cons_head]
  have hdeps0 : load_deps (load_module_recursive (fuel + 2) fs resolver) [pB]
      { modules := [], load_order := [], visiting := [pA] } = .ok
      { modules := [(pB, Module.mk pB srcB [pA])], load_order := [pB],
        visiting := [pA] } := by
    rw [load_deps, hstepB]
    rfl
  have hmain : load_module_recursive (fuel + 3) fs resolver pA
      { modules := [], load_order := [], visiting := [] } = .ok
      { modules :=
          [(pB, Module.mk pB srcB [pA]), (pA, Module.mk pA srcA [pB])],
        load_order := [pB, pA], visiting := [] } := by
    rw [load_module_recursive]
    simp only [lookupA, Option.isSome_none, Bool.false_eq_true, if_false,
      List.not_mem_nil, hA, hdA]
    rw [hdeps0]
    simp [insertA, hne', List.erase_cons_head]
  have hgraph : bundle_graph (fuel + 3) fs base_dir [(name, rel)] = .ok
      { modules :=
          [(pB, Module.mk pB srcB [pA]), (pA, Module.mk pA srcA [pB])],
        load_order := [pB, pA], visiting := [] } := by
    rw [bundle_graph, load_entries, hcan, ← hres]
    simp only [hmain]
    rfl
  refine ⟨hgraph, ⟨?_, ?_⟩, ?_⟩
  · simp [List.count_cons, hne']
  · simp [List.count_cons, hne]
  · rw [bundle_modules, hgraph]

/-- Witness for C4 at the concrete cyclic filesystem. -/
theorem C4_cycle_tolerance_witness :
    ([("/proj/b.js" : String), "/proj/a.js"].count
      ("/proj/a.js" : String) = 1) ∧
    ([("/proj/b.js" : String), "/proj/a.js"].count
      ("/proj/b.js" : String) = 1) :=
  (C4_cycle_tolerance 0 fs_cycle "/proj" "app" "a.js"
    "/proj/a.js" "/proj/b.js"
    "import \x7b b \x7d from \x22b.js\x22\nexport const a = 1;"
    "import \x7b a \x7d from \x22a.js\x22\nexport const b = 2;"
    (by decide) (by rfl) (by rfl) (by rfl) (by rfl) (by rfl)).2.1

/-! ### Claims C2, C9, C10: resolution agreement, unresolvable
imports, dynamic imports -/

/-- An alias whose target exists, and a module importing it by alias
name. -/
def fs_alias : String → Option String := fun p =>
  if p = "/base/lib/index.js" then some "export const v = 42;"
  else if p = "/base/src/main.js" then
    some "import \x7b v \x7d from \x22pkg\x22"
  else none

/-- A module importing a specifier that matches no alias and no
file. -/
def fs_missing : String → Option String := fun p =>
  if p = "/m/main.js" then some "import \x7b a \x7d from \x22missing\x22"
  else none

/-- A module reaching another only through a dynamic import. -/
def fs_dyn : String → Option String := fun p =>
  if p = "/proj/main.js" then
    some "import \x7b s \x7d from \x22sub.js\x22\nconst m = import(\x22sub.js\x22);"
  else if p = "/proj/sub.js" then some "export const s = 1;"
  else none

/-- A specifier matching no alias name never resolves through the
canonicalized alias list. -/
theorem lookupA_alias_pairs_none (fs : String → Option String)
    (base_dir spec : String) (aliases : List (String × String))
    (hno : ∀ nv ∈ aliases, nv.1 ≠ spec) :
    lookupA (alias_pairs fs base_dir aliases) spec = none := by
  rw [lookupA_eq_none_iff]
  intro hmem
  have hsub := (alias_pairs_keys_sublist fs base_dir aliases).subset hmem
  obtain ⟨nv, hnv, heq⟩ := List.mem_map.mp hsub
  exact hno nv hnv heq

/-- C2 counterexample. The graph builder resolves the alias-name
specifier pkg to its canonical path and records that path as the
dependency (and registry key), but transform_module re-resolves with a
fresh resolver built without the alias table, so the re-resolution
fails and the rewritten require call embeds the raw alias name, which
differs from the registry key. -/
theorem C2_counterexample :
    resolve_import
      (create_resolver fs_alias "/base"
        [("pkg", "lib/index.js"), ("app", "src/main.js")])
      "/base/src" "pkg" = some "/base/lib/index.js" ∧
    (bundle_graph 10 fs_alias "/base"
      [("pkg", "lib/index.js"), ("app", "src/main.js")]).map
      (fun st => (lookupA st.modules "/base/src/main.js").map
        Module.dependencies) = .ok (some ["/base/lib/index.js"]) ∧
    resolve_import (oxc_resolve [] [".js", ".mjs", ".cjs"] fs_alias)
      "/base/src" "pkg" = none ∧
    transform_module fs_alias "import \x7b v \x7d from \x22pkg\x22"
      "/base/src/main.js" [] =
      "const \x7b v \x7d = require(\x22pkg\x22)" ∧
    ("pkg" : String) ≠ "/base/lib/index.js" := by
  exact ⟨by rfl, by rfl, by rfl, by rfl, by decide⟩

/-- C2 amended. For every import specifier that matches no alias name,
the transformer's alias-free re-resolution agrees with the graph
builder's resolution, so for such specifiers the path embedded in the
rewritten require call equals the canonical path recorded as the
dependency; for alias-name specifiers the transformer's resolver lacks
the alias table, its re-resolution fails, and the raw alias name is
embedded instead of the canonical registry key, as the counterexample
shows. -/
theorem C2_amended_resolution_agreement (fs : String → Option String)
    (base_dir dir spec : String) (aliases : List (String × String))
    (hno : ∀ nv ∈ aliases, nv.1 ≠ spec) :
    resolve_import (create_resolver fs base_dir aliases) dir spec =
    resolve_import (oxc_resolve [] [".js", ".mjs", ".cjs"] fs) dir spec := by
  unfold resolve_import create_resolver oxc_resolve
  rw [lookupA_alias_pairs_none fs base_dir spec aliases hno]
  rfl

/-- Witness for the amended C2 at a concrete non-alias specifier. -/
theorem C2_amended_resolution_agreement_witness :
    resolve_import
      (create_resolver fs_alias "/base"
        [("pkg", "lib/index.js"), ("app", "src/main.js")])
      "/base/src" "other" =
    resolve_import (oxc_resolve [] [".js", ".mjs", ".cjs"] fs_alias)
      "/base/src" "other" :=
  C2_amended_resolution_agreement fs_alias "/base" "/base/src" "other"
    [("pkg", "lib/index.js"), ("app", "src/main.js")] (by decide)

/-- C9. An import specifier matching no alias name and no file on disk
resolves to none rather than an error, bundling a module containing
such an import completes without aborting (the unresolved import is
dropped from the dependency list), and the rewritten require call
embeds the raw specifier string in place of a canonical path. The
first conjunct is general; the remaining conjuncts exhibit the
end-to-end behavior on a concrete run. -/
theorem C9_unresolvable_import (fs : String → Option String)
    (base_dir dir spec : String) (aliases : List (String × String))
    (hno : ∀ nv ∈ aliases, nv.1 ≠ spec)
    (hf0 : fs (joinPath dir spec) = none)
    (hf1 : fs (joinPath dir spec ++ ".js") = none)
    (hf2 : fs (joinPath dir spec ++ ".mjs") = none)
    (hf3 : fs (joinPath dir spec ++ ".cjs") = none) :
    resolve_import (create_resolver fs base_dir aliases) dir spec = none ∧
    (bundle_graph 3 fs_missing "/m" [("app", "main.js")]).map
      (fun st => (st.load_order,
        (lookupA st.modules "/m/main.js").map Module.dependencies)) =
      .ok (["/m/main.js"], some []) ∧
    (bundle_modules 3 fs_missing "/m" [("app", "main.js")]).isOk = true ∧
    transform_module fs_missing "import \x7b a \x7d from \x22missing\x22"
      "/m/main.js" [] = "const \x7b a \x7d = require(\x22missing\x22)" := by
  refine ⟨?_, by rfl, by rfl, by rfl⟩
  unfold resolve_import create_resolver oxc_resolve
  rw [lookupA_alias_pairs_none fs base_dir spec aliases hno]
  simp [joinPath] at hf0 hf1 hf2 hf3
  simp [joinPath, hf0, hf1, hf2, hf3, firstSome]

/-- Witness for C9 at the concrete unresolvable specifier. -/
theorem C9_unresolvable_import_witness :
    resolve_import
      (create_resolver fs_missing "/m" [("app", "main.js")])
      "/m" "missing" = none :=
  (C9_unresolvable_import fs_missing "/m" "/m" "missing"
    [("app", "main.js")] (by decide) (by rfl) (by rfl) (by rfl)
    (by rfl)).1

/-- C10. Dynamic import expressions are used for dependency discovery:
their specifiers are extracted, resolved and traversed, so the
dynamically imported module is bundled and appears (before its
importer) in the load order; yet no substitution pass of
transform_module matches a dynamic import call, so the call text
appears verbatim in the transformed module body, both when its target
resolves and when it does not, and even while static imports around it
are rewritten. -/
theorem C10_dynamic_imports_verbatim :
    parse_imports "const m = import(\x22sub.js\x22);" = ["sub.js"] ∧
    (bundle_graph 3 fs_dyn "/proj" [("app", "main.js")]).map
      (fun st => (st.load_order,
        (lookupA st.modules "/proj/main.js").map Module.dependencies)) =
      .ok (["/proj/sub.js", "/proj/main.js"],
           some ["/proj/sub.js", "/proj/sub.js"]) ∧
    transform_module fs_dyn "const m = import(\x22sub.js\x22);"
      "/proj/main.js" [] = "const m = import(\x22sub.js\x22);" ∧
    transform_module fs_missing "const m = import(\x22zzz\x22);"
      "/m/main.js" [] = "const m = import(\x22zzz\x22);" ∧
    transform_module fs_dyn
      "import \x7b s \x7d from \x22sub.js\x22\nconst m = import(\x22sub.js\x22);"
      "/proj/main.js" [] =
      "const \x7b s \x7d = require(\x22/proj/sub.js\x22)\nconst m = import(\x22sub.js\x22);" := by
  exact ⟨by rfl, by rfl, by rfl, by rfl, by rfl⟩

/-! ### Specification form of the scanners

The fuelled scanners compute; the well-founded forms below have clean
equation lemmas and are proved equal to the fuelled forms whenever the
matcher consumes at least one character per match, which every matcher
in this development does. Symbolic reasoning about scans is done on
the specification forms. -/

/-- Well-founded form of replaceScanF. -/
def replaceScanW (m : List Char → Option (α × List Char)) (r : α → List Char) :
    List Char → List Char
  | [] => []
  | c :: rest =>
    match m (c :: rest) with
    | some (caps, after) =>
      if _h : after.length ≤ rest.length then
        r caps ++ replaceScanW m r after
      else
        r caps ++ after
    | none => c :: replaceScanW m r rest
  termination_by l => l.length
  decreasing_by
    all_goals simp_wf
    all_goals omega

/-- Well-founded form of capturesIterF. -/
def capturesIterW (m : List Char → Option (α × List Char)) :
    List Char → List α
  | [] => []
  | c :: rest =>
    match m (c :: rest) with
    | some (caps, after) =>
      if _h : after.length ≤ rest.length then
        caps :: capturesIterW m after
      else
        [caps]
    | none => capturesIterW m rest
  termination_by l => l.length
  decreasing_by
    all_goals simp_wf
    all_goals omega

theorem replaceScanW_nil (m : List Char → Option (α × List Char)) (r) :
    replaceScanW m r [] = [] := by
  rw [replaceScanW]

theorem replaceScanW_cons_none (m : List Char → Option (α × List Char)) (r)
    (c : Char) (rest : List Char) (h : m (c :: rest) = none) :
    replaceScanW m r (c :: rest) = c :: replaceScanW m r rest := by
  rw [replaceScanW, h]

theorem replaceScanW_cons_some (m : List Char → Option (α × List Char)) (r)
    (c : Char) (rest after : List Char) (caps : α)
    (h : m (c :: rest) = some (caps, after))
    (hlen : after.length ≤ rest.length) :
    replaceScanW m r (c :: rest) = r caps ++ replaceScanW m r after := by
  rw [replaceScanW, h]
  simp [hlen]

theorem capturesIterW_nil (m : List Char → Option (α × List Char)) :
    capturesIterW m [] = [] := by
  rw [capturesIterW]

theorem capturesIterW_cons_none (m : List Char → Option (α × List Char))
    (c : Char) (rest : List Char) (h : m (c :: rest) = none) :
    capturesIterW m (c :: rest) = capturesIterW m rest := by
  rw [capturesIterW, h]

theorem capturesIterW_cons_some (m : List Char → Option (α × List Char))
    (c : Char) (rest after : List Char) (caps : α)
    (h : m (c :: rest) = some (caps, after))
    (hlen : after.length ≤ rest.length) :
    capturesIterW m (c :: rest) = caps :: capturesIterW m after := by
  rw [capturesIterW, h]
  simp [hlen]

/-- The fuelled scan agrees with the specification scan for
character-consuming matchers. -/
theorem replaceScanF_eq_W (m : List Char → Option (α × List Char)) (r)
    (hm : ∀ l caps after, m l = some (caps, after) → after.length < l.length) :
    ∀ (fuel : Nat) (l : List Char), l.length ≤ fuel →
      replaceScanF m r fuel l = replaceScanW m r l := by
  intro fuel
  induction fuel with
  | zero =>
    intro l hl
    rw [List.length_eq_zero.mp (Nat.le_zero.mp hl)]
    rw [replaceScanW]
    rfl
  | succ n ih =>
    intro l hl
    cases l with
    | nil => rw [replaceScanW]; rfl
    | cons c rest =>
      rw [replaceScanF]
      cases hmc : m (c :: rest) with
      | none =>
        rw [replaceScanW_cons_none m r c rest hmc,
          ih rest (by simp at hl; omega)]
      | some p =>
        obtain ⟨caps, after⟩ := p
        have hless := hm _ _ _ hmc
        simp at hless hl
        dsimp only
        rw [replaceScanW_cons_some m r c rest after caps hmc (by omega),
          ih after (by omega)]

theorem replaceScan_eq_W (m : List Char → Option (α × List Char)) (r)
    (hm : ∀ l caps after, m l = some (caps, after) → after.length < l.length)
    (l : List Char) : replaceScan m r l = replaceScanW m r l :=
  replaceScanF_eq_W m r hm l.length l (Nat.le_refl _)

theorem capturesIterF_eq_W (m : List Char → Option (α × List Char))
    (hm : ∀ l caps after, m l = some (caps, after) → after.length < l.length) :
    ∀ (fuel : Nat) (l : List Char), l.length ≤ fuel →
      capturesIterF m fuel l = capturesIterW m l := by
  intro fuel
  induction fuel with
  | zero =>
    intro l hl
    rw [List.length_eq_zero.mp (Nat.le_zero.mp hl)]
    rw [capturesIterW]
    rfl
  | succ n ih =>
    intro l hl
    cases l with
    | nil => rw [capturesIterW]; rfl
    | cons c rest =>
      rw [capturesIterF]
      cases hmc : m (c :: rest) with
      | none =>
        rw [capturesIterW_cons_none m c rest hmc,
          ih rest (by simp at hl; omega)]
      | some p =>
        obtain ⟨caps, after⟩ := p
        have hless := hm _ _ _ hmc
        simp at hless hl
        dsimp only
        rw [capturesIterW_cons_some m c rest after caps hmc (by omega),
          ih after (by omega)]

theorem capturesIter_eq_W (m : List Char → Option (α × List Char))
    (hm : ∀ l caps after, m l = some (caps, after) → after.length < l.length)
    (l : List Char) : capturesIter m l = capturesIterW m l :=
  capturesIterF_eq_W m hm l.length l (Nat.le_refl _)

/-! ### Helper lemmas about the combinators -/

theorem takeWhile_append_of_all (p : Char → Bool) (a b : List Char)
    (ha : ∀ c ∈ a, p c = true)
    (hb : b = [] ∨ ∃ c t, b = c :: t ∧ p c = false) :
    (a ++ b).takeWhile p = a ∧ (a ++ b).dropWhile p = b := by
  induction a with
  | nil =>
    rcases hb with rfl | ⟨c, t, rfl, hc⟩
    · simp
    · simp [List.takeWhile, List.dropWhile, hc]
  | cons c a' ih =>
    have hc := ha c (List.mem_cons_self _ _)
    have ⟨iht, ihd⟩ := ih (fun x hx => ha x (List.mem_cons_of_mem _ hx))
    simp [List.takeWhile, List.dropWhile, hc, iht, ihd]

theorem mlit_some_eq (lit : List Char) :
    ∀ l r, mlit lit l = some r → l = lit ++ r := by
  induction lit with
  | nil =>
    intro l r h
    simp [mlit] at h
    simp [h]
  | cons c lit' ih =>
    intro l r h
    cases l with
    | nil => simp [mlit] at h
    | cons x xrest =>
      rw [mlit] at h
      by_cases hx : x = c
      · simp [hx] at h
        rw [hx, List.cons_append]
        rw [ih xrest r h]
      · simp [hx] at h

theorem mchar_some_eq (p : Char → Bool) :
    ∀ l r, mchar p l = some r → ∃ c, l = c :: r ∧ p c = true := by
  intro l r h
  cases l with
  | nil => simp [mchar] at h
  | cons c rest =>
    rw [mchar] at h
    by_cases hc : p c
    · simp [hc] at h
      exact ⟨c, by rw [h], hc⟩
    · simp [hc] at h

theorem mclass1_some_eq (p : Char → Bool) (l cap r : List Char)
    (h : mclass1 p l = some (cap, r)) :
    cap = l.takeWhile p ∧ r = l.dropWhile p := by
  rw [mclass1] at h
  by_cases he : (l.takeWhile p).isEmpty
  · simp [he] at h
  · simp [he] at h
    exact ⟨h.1.symm, h.2.symm⟩

theorem length_dropWhile_le (p : Char → Bool) (l : List Char) :
    (l.dropWhile p).length ≤ l.length :=
  (List.dropWhile_sublist p).length_le

theorem mws0_length_le (l : List Char) : (mws0 l).length ≤ l.length :=
  length_dropWhile_le isWs l

/-- The line-comment matcher consumes at least one character. -/
theorem matchLineComment_consumes (l : List Char) (caps : Unit)
    (after : List Char) (h : matchLineComment l = some (caps, after)) :
    after.length < l.length := by
  rw [matchLineComment] at h
  cases hml : mlit (strL "//") l with
  | none => rw [hml] at h; simp at h
  | some r =>
    rw [hml] at h
    have h2 : ((), r.dropWhile fun x => x != nl) = (caps, after) :=
      Option.some_inj.mp h
    have hafter : (r.dropWhile fun x => x != nl) = after :=
      congrArg Prod.snd h2
    have hl : l = strL "//" ++ r := mlit_some_eq _ _ _ hml
    have hle : (r.dropWhile fun x => x != nl).length ≤ r.length :=
      length_dropWhile_le _ _
    rw [hl, ← hafter]
    simp [strL]
    omega

theorem dropThroughClose_length (l : List Char) :
    ∀ t, dropThroughClose l = some t → t.length < l.length := by
  induction l with
  | nil => intro t h; simp [dropThroughClose] at h
  | cons c rest ih =>
    intro t h
    rw [dropThroughClose] at h
    by_cases hc : (c = '*' && (rest.take 1 == strL "/")) = true
    · rw [if_pos hc] at h
      obtain rfl := Option.some_inj.mp h
      simp
      have := rest.length_drop 1
      omega
    · rw [if_neg hc] at h
      have := ih t h
      simp
      omega

/-- The block-comment matcher consumes at least one character. -/
theorem matchBlockComment_consumes (l : List Char) (caps : Unit)
    (after : List Char) (h : matchBlockComment l = some (caps, after)) :
    after.length < l.length := by
  rw [matchBlockComment] at h
  cases hml : mlit (strL "/*") l with
  | none => rw [hml] at h; simp at h
  | some r =>
    rw [hml] at h
    simp only [Option.some_bind] at h
    cases hdt : dropThroughClose r with
    | none => rw [hdt] at h; simp at h
    | some t =>
      rw [hdt] at h
      have h2 : ((), t) = (caps, after) := Option.some_inj.mp h
      have hafter : t = after := congrArg Prod.snd h2
      have hl : l = strL "/*" ++ r := mlit_some_eq _ _ _ hml
      have hlen := dropThroughClose_length r t hdt
      rw [hl, ← hafter]
      simp [strL]
      omega

/-- The pair matcher consumes at least one character. -/
theorem matchPair_consumes (l : List Char) (caps : List Char × List Char)
    (after : List Char) (h : matchPair l = some (caps, after)) :
    after.length < l.length := by
  rw [matchPair] at h
  cases h1 : mchar isQuote l with
  | none => rw [h1] at h; simp at h
  | some l1 =>
    rw [h1] at h
    obtain ⟨c1, hc1, _⟩ := mchar_some_eq _ _ _ h1
    simp only [Option.some_bind] at h
    simp only [Option.bind_eq_some] at h
    obtain ⟨⟨key, l3⟩, h2, h⟩ := h
    obtain ⟨l4, h3, h⟩ := h
    obtain ⟨l6, h4, h⟩ := h
    obtain ⟨l8, h5, h⟩ := h
    obtain ⟨⟨v, l9⟩, h6, h⟩ := h
    simp only [Option.map_eq_some'] at h
    obtain ⟨l10, h7, h⟩ := h
    have e2 := (mclass1_some_eq _ _ _ _ h2).2
    obtain ⟨c3, hc3, _⟩ := mchar_some_eq _ _ _ h3
    obtain ⟨c4, hc4, _⟩ := mchar_some_eq _ _ _ h4
    obtain ⟨c5, hc5, _⟩ := mchar_some_eq _ _ _ h5
    have e6 := (mclass1_some_eq _ _ _ _ h6).2
    obtain ⟨c7, hc7, _⟩ := mchar_some_eq _ _ _ h7
    have hafter : after = l10 := (congrArg Prod.snd h).symm
    rw [hafter]
    simp only at hc3
    -- chain the length bounds
    have b7 : l10.length < l9.length := by rw [hc7]; simp
    have b6 : l9.length ≤ l8.length := by
      rw [e6]; exact length_dropWhile_le _ _
    have b5 : l8.length < (mws0 l6).length := by rw [hc5]; simp
    have b5' : (mws0 l6).length ≤ l6.length := mws0_length_le l6
    have b4 : l6.length < (mws0 l4).length := by rw [hc4]; simp
    have b4' : (mws0 l4).length ≤ l4.length := mws0_length_le l4
    have b3 : l4.length < l3.length := by rw [hc3]; simp
    have b2 : l3.length ≤
        (if l1.take 1 = strL "@" then l1.drop 1 else l1).length := by
      rw [e2]; exact length_dropWhile_le _ _
    have b2' : (if l1.take 1 = strL "@" then l1.drop 1 else l1).length ≤
        l1.length := by
      by_cases hat : l1.take 1 = strL "@"
      · simp [hat]
      · simp [hat]
    have b1 : l1.length < l.length := by rw [hc1]; simp
    omega

/-! ### Where the config matchers can and cannot match -/

theorem mlit_self (lit : List Char) : ∀ r, mlit lit (lit ++ r) = some r := by
  induction lit with
  | nil => intro r; rfl
  | cons c lit' ih =>
    intro r
    rw [List.cons_append, mlit]
    simp [ih]

theorem matchLineComment_none_head (c : Char) (rest : List Char)
    (h : ¬ c = '/') : matchLineComment (c :: rest) = none := by
  rw [matchLineComment, show strL "//" = ['/', '/'] from rfl, mlit]
  simp [h]

theorem matchLineComment_none_second (c : Char) (rest : List Char)
    (h : ¬ c = '/') : matchLineComment ('/' :: c :: rest) = none := by
  rw [matchLineComment, show strL "//" = ['/', '/'] from rfl, mlit]
  simp [mlit, h]

theorem matchLineComment_none_single : matchLineComment ['/'] = none := by
  rfl

theorem matchBlockComment_none_head (c : Char) (rest : List Char)
    (h : ¬ c = '/') : matchBlockComment (c :: rest) = none := by
  rw [matchBlockComment, show strL "/*" = ['/', '*'] from rfl, mlit]
  simp [h]

theorem matchBlockComment_none_second (c : Char) (rest : List Char)
    (h : ¬ c = '*') : matchBlockComment ('/' :: c :: rest) = none := by
  rw [matchBlockComment, show strL "/*" = ['/', '*'] from rfl, mlit]
  simp [mlit, h]

theorem matchBlockComment_none_single : matchBlockComment ['/'] = none := by
  rfl

theorem matchPair_none_head (c : Char) (rest : List Char)
    (h : isQuote c = false) : matchPair (c :: rest) = none := by
  rw [matchPair, mchar]
  simp [h]

/-- A line comment matches at its start and consumes up to, not
including, the following newline. -/
theorem matchLineComment_match (b y : List Char)
    (hb : ∀ c ∈ b, ¬ c = nl) (hy : y = [] ∨ ∃ t, y = nl :: t) :
    matchLineComment (strL "// " ++ b ++ y) = some ((), y) := by
  rw [matchLineComment]
  have hshape : strL "// " ++ b ++ y = strL "//" ++ ((' ' :: b) ++ y) := by
    simp [strL]
  rw [hshape, mlit_self]
  simp only [Option.map_some']
  have hdrop : ((' ' :: b) ++ y).dropWhile (fun x => x != nl) = y := by
    refine (takeWhile_append_of_all _ _ _ ?_ ?_).2
    · intro c hc
      rcases List.mem_cons.mp hc with rfl | hcb
      · rfl
      · simp [hb c hcb]
    · rcases hy with rfl | ⟨t, rfl⟩
      · exact Or.inl rfl
      · exact Or.inr ⟨nl, t, rfl, by simp⟩
  rw [hdrop]

theorem dropThroughClose_skip (a : List Char) :
    ∀ rest, (∀ c ∈ a, ¬ c = '*') →
      dropThroughClose (a ++ rest) = dropThroughClose rest := by
  induction a with
  | nil => intro rest _; rfl
  | cons c a' ih =>
    intro rest ha
    rw [List.cons_append, dropThroughClose]
    have hc : ¬ c = '*' := ha c (List.mem_cons_self _ _)
    simp only [hc, Bool.false_and, decide_False]
    · exact ih rest (fun x hx => ha x (List.mem_cons_of_mem _ hx))

/-- A block comment matches at its start and consumes through its
closing delimiter. -/
theorem matchBlockComment_match (b y : List Char)
    (hb : ∀ c ∈ b, ¬ c = '*') :
    matchBlockComment (strL "/* " ++ b ++ strL " */" ++ y) = some ((), y) := by
  rw [matchBlockComment]
  have hshape : strL "/* " ++ b ++ strL " */" ++ y =
      strL "/*" ++ ((' ' :: b) ++ (' ' :: '*' :: '/' :: y)) := by
    simp [strL]
  rw [hshape, mlit_self]
  simp only [Option.some_bind]
  have hdrop : dropThroughClose ((' ' :: b) ++ (' ' :: '*' :: '/' :: y)) =
      some y := by
    rw [dropThroughClose_skip (' ' :: b) _ ?_]
    · rw [dropThroughClose]
      simp only [show ¬ (' ' = '*') from by decide, Bool.false_and,
        decide_False]
      rw [dropThroughClose]
      simp [strL]
    · intro c hc
      rcases List.mem_cons.mp hc with rfl | hcb
      · decide
      · exact hb c hcb
  rw [hdrop]
  rfl

theorem mchar_cons (p : Char → Bool) (c : Char) (rest : List Char) :
    mchar p (c :: rest) = if p c then some rest else none := rfl

/-- The pair matcher matches a rendered alias pair at its start,
capturing the key and the value. -/
theorem matchPair_match (k v y : List Char)
    (hk : k ≠ []) (hkc : ∀ c ∈ k, isKeyChar c = true)
    (hv : v ≠ []) (hvc : ∀ c ∈ v, isQuote c = false) :
    matchPair (sq :: (k ++ (sq :: ':' :: ' ' :: sq :: (v ++ sq :: y)))) =
      some ((k, v), y) := by
  obtain ⟨kh, kt, rfl⟩ := List.exists_cons_of_ne_nil hk
  have hkh : isKeyChar kh = true := hkc kh (List.mem_cons_self _ _)
  have hkh' : ¬ kh = '@' := by
    intro he
    rw [he] at hkh
    exact absurd hkh (by decide)
  have hcls1 := takeWhile_append_of_all isKeyChar (kh :: kt)
    (sq :: ':' :: ' ' :: sq :: (v ++ sq :: y)) hkc
    (Or.inr ⟨sq, _, rfl, by decide⟩)
  have hcls2 := takeWhile_append_of_all (fun c => !isQuote c) v
    (sq :: y) (fun c hc => by simp [hvc c hc])
    (Or.inr ⟨sq, y, rfl, by decide⟩)
  rw [matchPair]
  rw [mchar_cons]
  simp only [show isQuote sq = true from by decide, if_true, Option.some_bind]
  have htake : ((kh :: kt) ++
      (sq :: ':' :: ' ' :: sq :: (v ++ sq :: y))).take 1 = [kh] := by
    rfl
  rw [htake]
  simp only [show ([kh] = strL "@") = (kh = '@') from by
    simp [strL], hkh', if_false]
  rw [mclass1]
  simp only [hcls1.1, hcls1.2]
  simp only [show (kh :: kt).isEmpty = false from rfl,
    Bool.false_eq_true, if_false, Option.some_bind]
  rw [mchar_cons]
  simp only [show isQuote sq = true from by decide, if_true,
    Option.some_bind]
  rw [show mws0 (':' :: ' ' :: sq :: (v ++ sq :: y)) =
    ':' :: ' ' :: sq :: (v ++ sq :: y) from rfl]
  rw [mchar_cons]
  simp only [show (':' = ':') from rfl, decide_True, if_true,
    Option.some_bind]
  rw [show mws0 (' ' :: sq :: (v ++ sq :: y)) = sq :: (v ++ sq :: y)
    from rfl]
  rw [mchar_cons]
  simp only [show isQuote sq = true from by decide, if_true,
    Option.some_bind]
  rw [mclass1]
  simp only [hcls2.1, hcls2.2]
  obtain ⟨vh, vt, rfl⟩ := List.exists_cons_of_ne_nil hv
  simp only [show (vh :: vt).isEmpty = false from rfl,
    Bool.false_eq_true, if_false, Option.some_bind]
  rw [mchar_cons]
  simp only [show isQuote sq = true from by decide, if_true,
    Option.map_some']
  rfl

/-- Text without slashes is copied unchanged by the line-comment
scan. -/
theorem stripLineW_copy (x : List Char) :
    ∀ y, (∀ c ∈ x, ¬ c = '/') →
      replaceScanW matchLineComment (fun _ => []) (x ++ y) =
        x ++ replaceScanW matchLineComment (fun _ => []) y := by
  induction x with
  | nil => intro y _; rfl
  | cons c x' ih =>
    intro y hx
    rw [List.cons_append,
      replaceScanW_cons_none _ _ _ _
        (matchLineComment_none_head c _ (hx c (List.mem_cons_self _ _))),
      ih y (fun a ha => hx a (List.mem_cons_of_mem _ ha))]
    rfl

/-- Text without slashes is copied unchanged by the block-comment
scan. -/
theorem stripBlockW_copy (x : List Char) :
    ∀ y, (∀ c ∈ x, ¬ c = '/') →
      replaceScanW matchBlockComment (fun _ => []) (x ++ y) =
        x ++ replaceScanW matchBlockComment (fun _ => []) y := by
  induction x with
  | nil => intro y _; rfl
  | cons c x' ih =>
    intro y hx
    rw [List.cons_append,
      replaceScanW_cons_none _ _ _ _
        (matchBlockComment_none_head c _ (hx c (List.mem_cons_self _ _))),
      ih y (fun a ha => hx a (List.mem_cons_of_mem _ ha))]
    rfl

/-! ### C6: abstract configuration items and comment insensitivity

The remaining development renders an abstract list of configuration
items (alias pairs, line comments, block comments) into configuration
text and tracks it through the two comment passes and the pair
extraction of parse_config. -/

/-- An abstract configuration item: an alias pair, a line comment, or
a block comment. -/
inductive CfgItem
  | pairI (k v : List Char)
  | lineI (b : List Char)
  | blockI (b : List Char)

/-- Whether an item is an alias pair. -/
def isPairB : CfgItem → Bool
  | .pairI _ _ => true
  | .lineI _ => false
  | .blockI _ => false

/-- Rendered text of an alias pair: quoted key, colon, space, quoted
value. -/
def pairL (k v : List Char) : List Char :=
  sq :: (k ++ (sq :: ':' :: ' ' :: sq :: (v ++ [sq])))

/-- Rendered text of an item. -/
def itemL : CfgItem → List Char
  | .pairI k v => pairL k v
  | .lineI b => strL "// " ++ b
  | .blockI b => strL "/* " ++ b ++ strL " */"

/-- Text of an item after the line-comment pass. -/
def itemStrip1 : CfgItem → List Char
  | .pairI k v => pairL k v
  | .lineI _ => []
  | .blockI b => strL "/* " ++ b ++ strL " */"

/-- Text of an item after both comment passes. -/
def itemStrip2 : CfgItem → List Char
  | .pairI k v => pairL k v
  | .lineI _ => []
  | .blockI _ => []

/-- Join the texts of the items with newline separators. -/
def renderWith (f : CfgItem → List Char) : List CfgItem → List Char
  | [] => []
  | [i] => f i
  | i :: j :: rest => f i ++ nl :: renderWith f (j :: rest)

/-- The key-value captures contributed by the pair items, in order. -/
def pairsKV (items : List CfgItem) : List (List Char × List Char) :=
  items.filterMap fun i =>
    match i with
    | .pairI k v => some (k, v)
    | _ => none

/-- Well-formedness of a rendered item: pair keys are nonempty runs of
key characters other than slash, pair values are nonempty runs of
unquoted characters other than slash, line-comment bodies contain no
newline, and block-comment bodies contain no star and no slash. -/
def goodItem : CfgItem → Bool
  | .pairI k v =>
      (!k.isEmpty && k.all (fun c => isKeyChar c && !(c = '/'))) &&
      (!v.isEmpty && v.all (fun c => !isQuote c && !(c = '/')))
  | .lineI b => b.all (fun c => !(c = nl))
  | .blockI b => b.all (fun c => !(c = '*') && !(c = '/'))

theorem goodItem_pair (k v : List Char)
    (h : goodItem (.pairI k v) = true) :
    k ≠ [] ∧ (∀ c ∈ k, isKeyChar c = true) ∧ (∀ c ∈ k, ¬ c = '/') ∧
    v ≠ [] ∧ (∀ c ∈ v, isQuote c = false) ∧ (∀ c ∈ v, ¬ c = '/') := by
  rw [goodItem] at h
  simp only [Bool.and_eq_true, List.all_eq_true] at h
  obtain ⟨⟨hk, hkc⟩, hv, hvc⟩ := h
  refine ⟨?_, ?_, ?_, ?_, ?_, ?_⟩
  · intro he
    subst he
    simp at hk
  · intro c hc
    have := hkc c hc
    simp at this
    exact this.1
  · intro c hc
    have := hkc c hc
    simp at this
    exact this.2
  · intro he
    subst he
    simp at hv
  · intro c hc
    have := hvc c hc
    simp only [Bool.and_eq_true, Bool.not_eq_true'] at this
    exact this.1
  · intro c hc
    have := hvc c hc
    simp at this
    exact this.2

theorem pairL_no_slash (k v : List Char)
    (hks : ∀ c ∈ k, ¬ c = '/') (hvs : ∀ c ∈ v, ¬ c = '/') :
    ∀ c ∈ pairL k v, ¬ c = '/' := by
  intro c hc
  rw [pairL] at hc
  simp only [List.mem_cons, List.mem_append, List.mem_singleton] at hc
  rcases hc with rfl | hc | rfl | rfl | rfl | rfl | hc | rfl | hc
  · decide
  · exact hks c hc
  · decide
  · decide
  · decide
  · decide
  · exact hvs c hc
  · decide
  · exact absurd hc (List.not_mem_nil c)

/-- The line-comment pass maps a rendered item followed by a newline
separator (or the end of the text) to its line-stripped text. -/
theorem strip1_item (i : CfgItem) (hi : goodItem i = true) (y : List Char)
    (hy : y = [] ∨ ∃ t, y = nl :: t) :
    replaceScanW matchLineComment (fun _ => []) (itemL i ++ y) =
      itemStrip1 i ++ replaceScanW matchLineComment (fun _ => []) y := by
  cases i with
  | pairI k v =>
    obtain ⟨_, _, hks, _, _, hvs⟩ := goodItem_pair k v hi
    exact stripLineW_copy (pairL k v) y (pairL_no_slash k v hks hvs)
  | lineI b =>
    have hb : ∀ c ∈ b, ¬ c = nl := by
      intro c hc
      have := List.all_eq_true.mp hi c hc
      simpa using this
    have hmatch := matchLineComment_match b y hb hy
    have hshape : itemL (.lineI b) ++ y = '/' :: ('/' :: ' ' :: (b ++ y)) := by
      simp [itemL, strL]
    rw [hshape]
    rw [replaceScanW_cons_some _ _ _ _ y ()
      (by
        rw [show ('/' :: ('/' :: ' ' :: (b ++ y))) = strL "// " ++ b ++ y
          from by simp [strL]]
        exact hmatch)
      (by simp; omega)]
    rfl
  | blockI b =>
    have hb : ∀ c ∈ b, ¬ c = '/' := by
      intro c hc
      have := List.all_eq_true.mp hi c hc
      simp at this
      exact this.2
    have hshape : itemL (.blockI b) ++ y =
        '/' :: '*' :: ' ' :: (b ++ (' ' :: '*' :: '/' :: y)) := by
      simp [itemL, strL]
    rw [hshape]
    rw [replaceScanW_cons_none _ _ _ _
      (matchLineComment_none_second '*' _ (by decide))]
    rw [replaceScanW_cons_none _ _ _ _
      (matchLineComment_none_head '*' _ (by decide))]
    rw [replaceScanW_cons_none _ _ _ _
      (matchLineComment_none_head ' ' _ (by decide))]
    rw [stripLineW_copy b _ hb]
    rw [replaceScanW_cons_none _ _ _ _
      (matchLineComment_none_head ' ' _ (by decide))]
    rw [replaceScanW_cons_none _ _ _ _
      (matchLineComment_none_head '*' _ (by decide))]
    rcases hy with rfl | ⟨t, rfl⟩
    · rw [show ('/' :: ([] : List Char)) = ['/'] from rfl]
      rw [replaceScanW_cons_none _ _ _ _ matchLineComment_none_single]
      simp [itemStrip1, strL, replaceScanW_nil]
    · rw [replaceScanW_cons_none _ _ _ _
        (matchLineComment_none_second nl _ (by decide))]
      simp [itemStrip1, strL]

/-- The line-comment pass maps the rendered item list to the rendered
line-stripped texts. -/
theorem strip1_render : ∀ items : List CfgItem,
    (∀ i ∈ items, goodItem i = true) →
    replaceScanW matchLineComment (fun _ => []) (renderWith itemL items) =
      renderWith itemStrip1 items
  | [], _ => by simp [renderWith, replaceScanW_nil]
  | [i], h => by
    have := strip1_item i (h i (List.mem_cons_self _ _)) [] (Or.inl rfl)
    simpa [renderWith, replaceScanW_nil] using this
  | i :: j :: rest, h => by
    rw [show renderWith itemL (i :: j :: rest) =
      itemL i ++ (nl :: renderWith itemL (j :: rest)) from rfl]
    rw [strip1_item i (h i (List.mem_cons_self _ _)) _ (Or.inr ⟨_, rfl⟩)]
    rw [replaceScanW_cons_none _ _ _ _
      (matchLineComment_none_head nl _ (by decide))]
    rw [strip1_render (j :: rest) (fun a ha => h a (List.mem_cons_of_mem _ ha))]
    rfl

/-- The block-comment pass maps a line-stripped item followed by a
separator to its fully stripped text. -/
theorem strip2_item (i : CfgItem) (hi : goodItem i = true) (y : List Char) :
    replaceScanW matchBlockComment (fun _ => []) (itemStrip1 i ++ y) =
      itemStrip2 i ++ replaceScanW matchBlockComment (fun _ => []) y := by
  cases i with
  | pairI k v =>
    obtain ⟨_, _, hks, _, _, hvs⟩ := goodItem_pair k v hi
    exact stripBlockW_copy (pairL k v) y (pairL_no_slash k v hks hvs)
  | lineI b => rfl
  | blockI b =>
    have hb : ∀ c ∈ b, ¬ c = '*' := by
      intro c hc
      have := List.all_eq_true.mp hi c hc
      simp at this
      exact this.1
    have hmatch := matchBlockComment_match b y hb
    have hshape : itemStrip1 (.blockI b) ++ y =
        '/' :: ('*' :: ' ' :: (b ++ (' ' :: '*' :: '/' :: y))) := by
      simp [itemStrip1, strL]
    rw [hshape]
    rw [replaceScanW_cons_some _ _ _ _ y ()
      (by
        rw [show ('/' :: ('*' :: ' ' :: (b ++ (' ' :: '*' :: '/' :: y)))) =
          strL "/* " ++ b ++ strL " */" ++ y from by simp [strL]]
        exact hmatch)
      (by simp [List.length_append]; omega)]
    rfl

/-- The block-comment pass maps the rendered line-stripped texts to the
rendered fully stripped texts. -/
theorem strip2_render : ∀ items : List CfgItem,
    (∀ i ∈ items, goodItem i = true) →
    replaceScanW matchBlockComment (fun _ => [])
        (renderWith itemStrip1 items) =
      renderWith itemStrip2 items
  | [], _ => by simp [renderWith, replaceScanW_nil]
  | [i], h => by
    have := strip2_item i (h i (List.mem_cons_self _ _)) []
    simpa [renderWith, replaceScanW_nil] using this
  | i :: j :: rest, h => by
    rw [show renderWith itemStrip1 (i :: j :: rest) =
      itemStrip1 i ++ (nl :: renderWith itemStrip1 (j :: rest)) from rfl]
    rw [strip2_item i (h i (List.mem_cons_self _ _)) _]
    rw [replaceScanW_cons_none _ _ _ _
      (matchBlockComment_none_head nl _ (by decide))]
    rw [strip2_render (j :: rest) (fun a ha => h a (List.mem_cons_of_mem _ ha))]
    rfl

/-- Pair extraction over the fully stripped rendering returns exactly
the abstract pairs, in order. -/
theorem extract_render : ∀ items : List CfgItem,
    (∀ i ∈ items, goodItem i = true) →
    capturesIterW matchPair (renderWith itemStrip2 items) = pairsKV items
  | [], _ => by simp [renderWith, capturesIterW_nil, pairsKV]
  | [i], h => by
    cases i with
    | pairI k v =>
      obtain ⟨hk, hkc, _, hv, hvc, _⟩ :=
        goodItem_pair k v (h _ (List.mem_cons_self _ _))
      rw [show renderWith itemStrip2 [CfgItem.pairI k v] =
        sq :: (k ++ (sq :: ':' :: ' ' :: sq :: (v ++ sq :: []))) from rfl]
      rw [capturesIterW_cons_some _ _ _ [] (k, v)
        (matchPair_match k v [] hk hkc hv hvc) (Nat.zero_le _)]
      rw [capturesIterW_nil]
      rfl
    | lineI b =>
      rw [show renderWith itemStrip2 [CfgItem.lineI b] = [] from rfl,
        capturesIterW_nil]
      rfl
    | blockI b =>
      rw [show renderWith itemStrip2 [CfgItem.blockI b] = [] from rfl,
        capturesIterW_nil]
      rfl
  | i :: j :: rest, h => by
    have hrest := extract_render (j :: rest)
      (fun a ha => h a (List.mem_cons_of_mem _ ha))
    cases i with
    | pairI k v =>
      obtain ⟨hk, hkc, _, hv, hvc, _⟩ :=
        goodItem_pair k v (h _ (List.mem_cons_self _ _))
      rw [show renderWith itemStrip2 (CfgItem.pairI k v :: j :: rest) =
        sq :: (k ++ (sq :: ':' :: ' ' :: sq ::
          (v ++ sq :: (nl :: renderWith itemStrip2 (j :: rest))))) from by
        simp [renderWith, itemStrip2, pairL]]
      rw [capturesIterW_cons_some _ _ _ _ (k, v)
        (matchPair_match k v _ hk hkc hv hvc)
        (by simp [List.length_append]; omega)]
      rw [capturesIterW_cons_none _ _ _
        (matchPair_none_head nl _ (by decide))]
      rw [hrest]
      rfl
    | lineI b =>
      rw [show renderWith itemStrip2 (CfgItem.lineI b :: j :: rest) =
        nl :: renderWith itemStrip2 (j :: rest) from rfl]
      rw [capturesIterW_cons_none _ _ _
        (matchPair_none_head nl _ (by decide))]
      rw [hrest]
      rfl
    | blockI b =>
      rw [show renderWith itemStrip2 (CfgItem.blockI b :: j :: rest) =
        nl :: renderWith itemStrip2 (j :: rest) from rfl]
      rw [capturesIterW_cons_none _ _ _
        (matchPair_none_head nl _ (by decide))]
      rw [hrest]
      rfl

/-- parse_config over a rendered item list builds the table of its
abstract pairs. -/
theorem parse_config_render (items : List CfgItem)
    (h : ∀ i ∈ items, goodItem i = true) :
    parse_config ⟨renderWith itemL items⟩ =
      (pairsKV items).foldl
        (fun acc kv => insertA acc ⟨kv.1⟩ ⟨kv.2⟩) [] := by
  simp only [parse_config, stripLineComments, stripBlockComments]
  rw [replaceScan_eq_W _ _ matchLineComment_consumes, strip1_render items h]
  rw [replaceScan_eq_W _ _ matchBlockComment_consumes, strip2_render items h]
  rw [capturesIter_eq_W _ matchPair_consumes, extract_render items h]

theorem pairsKV_filter : ∀ items : List CfgItem,
    pairsKV (items.filter isPairB) = pairsKV items
  | [] => rfl
  | i :: rest => by
    cases i with
    | pairI k v =>
      rw [show (CfgItem.pairI k v :: rest).filter isPairB =
        CfgItem.pairI k v :: rest.filter isPairB from rfl]
      rw [show pairsKV (CfgItem.pairI k v :: rest.filter isPairB) =
        (k, v) :: pairsKV (rest.filter isPairB) from rfl]
      rw [pairsKV_filter rest]
      rfl
    | lineI b =>
      rw [show (CfgItem.lineI b :: rest).filter isPairB =
        rest.filter isPairB from rfl]
      rw [pairsKV_filter rest]
      rfl
    | blockI b =>
      rw [show (CfgItem.blockI b :: rest).filter isPairB =
        rest.filter isPairB from rfl]
      rw [pairsKV_filter rest]
      rfl

/-- C6, counterexample: a line comment hidden inside a block comment.
The implementation strips line comments first, so the two-slash run
inside the block comment eats the rest of the line, including the
closing star-slash and the alias pair after it: the commented
configuration parses to an empty table while the same pair without the
comment parses. -/
theorem C6_counterexample :
    parse_config "/* x // y */ \x27a\x27: \x27b\x27" = [] ∧
    parse_config " \x27a\x27: \x27b\x27" = [("a", "b")] :=
  ⟨rfl, rfl⟩

/-- C6, amended: alias extraction is insensitive to decorative
comments whose bodies do not interfere with the comment syntax itself.
For every item list of well-formed alias pairs, line comments without
newlines, and block comments without stars or slashes, parsing the
rendered configuration yields the same table as parsing the rendering
of the pairs alone. -/
theorem C6_amended_comment_insensitive (items : List CfgItem)
    (h : ∀ i ∈ items, goodItem i = true) :
    parse_config ⟨renderWith itemL items⟩ =
      parse_config ⟨renderWith itemL (items.filter isPairB)⟩ := by
  rw [parse_config_render items h,
    parse_config_render _ (fun i hi => h i (List.mem_of_mem_filter hi)),
    pairsKV_filter]

/-- C6, amended witness: a block comment, an alias pair, and a line
comment. -/
theorem C6_amended_comment_insensitive_witness :
    (∀ i ∈ [CfgItem.blockI (strL "x y"),
        CfgItem.pairI (strL "a") (strL "b"),
        CfgItem.lineI (strL " note")], goodItem i = true) ∧
    parse_config ⟨renderWith itemL [CfgItem.blockI (strL "x y"),
        CfgItem.pairI (strL "a") (strL "b"),
        CfgItem.lineI (strL " note")]⟩ =
      parse_config ⟨renderWith itemL ([CfgItem.blockI (strL "x y"),
        CfgItem.pairI (strL "a") (strL "b"),
        CfgItem.lineI (strL " note")].filter isPairB)⟩ :=
  ⟨by decide, C6_amended_comment_insensitive _ (by decide)⟩


/-! ### C7: the value bound by a rewritten default import

The default-import pass emits the text
const N = (function()\x7b var m = require(P); return m.default || m; \x7d)();
what N is bound to is decided by the JavaScript evaluation of
m.default || m in the consumer runtime, which is outside src/.
Modelled from the spec: a small value model of JavaScript with
property access, truthiness, and the short-circuiting or operator. -/

/-- Modelled from the spec: a JavaScript runtime value. -/
inductive JsValue
  | undefv
  | nullv
  | boolv (b : Bool)
  | numv (n : Int)
  | strv (s : String)
  | objv (props : List (String × JsValue))

/-- Modelled from the spec: JavaScript truthiness. -/
def truthy : JsValue → Bool
  | .undefv => false
  | .nullv => false
  | .boolv b => b
  | .numv n => !(n = 0)
  | .strv s => !s.isEmpty
  | .objv _ => true

/-- Modelled from the spec: property access, undefined when the
property is absent or the value is not an object. -/
def getProp (v : JsValue) (k : String) : JsValue :=
  match v with
  | .objv props => (lookupA props k).getD .undefv
  | _ => .undefv

/-- Modelled from the spec: whether the value is an object carrying
the property. -/
def hasProp (v : JsValue) (k : String) : Bool :=
  match v with
  | .objv props => (lookupA props k).isSome
  | _ => false

/-- Modelled from the spec: the value computed by the emitted
expression m.default || m under the short-circuiting JavaScript or:
the default property when truthy, the whole module object otherwise. -/
def default_import_binding (m : JsValue) : JsValue :=
  if truthy (getProp m "default") then getProp m "default" else m

/-- C7, counterexample. The emitted expression m.default || m tests
truthiness, not presence: a module object whose default property is
present but false is bound whole, although the claim requires the
binding to be the default property whenever it is present. -/
theorem C7_counterexample :
    transform_module fs_missing "import Foo from \x22x\x22" "/m/main.js" [] =
      "const Foo = (function()\x7b var m = require(\x22x\x22); return m.default || m; \x7d)()" ∧
    hasProp (JsValue.objv [("default", JsValue.boolv false)]) "default" = true ∧
    default_import_binding (JsValue.objv [("default", JsValue.boolv false)]) =
      JsValue.objv [("default", JsValue.boolv false)] ∧
    default_import_binding (JsValue.objv [("default", JsValue.boolv false)]) ≠
      getProp (JsValue.objv [("default", JsValue.boolv false)]) "default" :=
  ⟨rfl, rfl, rfl, fun h => JsValue.noConfusion h⟩

/-- C7, amended. The transformer rewrites a default import to an
immediately invoked function returning m.default || m (shown on a
concrete module), and the value of that expression is the default
property exactly when that property is truthy: a module object without
a default property is bound whole, one whose default property is
truthy is bound to that property, and one whose default property is
falsy — even if present — is bound whole. -/
theorem C7_amended_default_import (v : JsValue) :
    transform_module fs_missing "import Foo from \x22x\x22" "/m/main.js" [] =
      "const Foo = (function()\x7b var m = require(\x22x\x22); return m.default || m; \x7d)()" ∧
    (hasProp v "default" = false → default_import_binding v = v) ∧
    (truthy (getProp v "default") = true →
      default_import_binding v = getProp v "default") ∧
    (truthy (getProp v "default") = false →
      default_import_binding v = v) := by
  refine ⟨by rfl, ?_, ?_, ?_⟩
  · intro h
    cases v with
    | objv props =>
      rw [hasProp] at h
      rw [default_import_binding, getProp]
      cases hl : lookupA props "default" with
      | some w => rw [hl] at h; simp at h
      | none => simp [hl, truthy]
    | undefv => rfl
    | nullv => rfl
    | boolv b => rfl
    | numv n => rfl
    | strv s => rfl
  · intro h
    rw [default_import_binding, if_pos h]
  · intro h
    rw [default_import_binding, if_neg (by simp [h])]

/-- C7, amended witness: a module object with a truthy default
property is bound to that property. -/
theorem C7_amended_default_import_witness :
    truthy (getProp (JsValue.objv [("default", JsValue.numv 7)]) "default") =
      true ∧
    default_import_binding (JsValue.objv [("default", JsValue.numv 7)]) =
      getProp (JsValue.objv [("default", JsValue.numv 7)]) "default" :=
  ⟨by decide,
    (C7_amended_default_import
      (JsValue.objv [("default", JsValue.numv 7)])).2.2.1 (by decide)⟩

/-! ### C8: the from guard of the bare-export pass -/

/-- C8, counterexample. The guard of the bare-export pass tests
whether the matched text contains the word from, but the bare-export
pattern never captures a from clause — the matched text is only
export-brace-names-brace. The guard therefore fires exactly on binding
names containing from as a substring: the bare export list
export-brace-fromage-brace has no from clause, yet it is left
untouched instead of being rewritten to an exports assignment. -/
theorem C8_counterexample :
    transform_module (fun _ => none) "export \x7b fromage \x7d" "/m/a.js" [] =
      "export \x7b fromage \x7d" ∧
    containsSub (strL "export \x7b fromage \x7d") (strL "from") = true ∧
    transform_module (fun _ => none) "export \x7b fromage \x7d" "/m/a.js" [] ≠
      "exports.fromage = fromage" :=
  ⟨rfl, rfl, by decide⟩

/-- C8, amended. The bare-export pass rewrites export lists to
exports assignments, honoring local-as-exported renaming, and genuine
re-exports are untouched by it because the earlier re-export pass has
already consumed them; but the skip guard itself does not fire on
genuine re-exports (whose from clause lies outside the matched text) —
it fires exactly on matches whose binding names contain from as a
substring, which the counterexample exhibits. Shown end to end:
export-brace-a-comma-b-brace becomes two exports assignments,
export-brace-x-as-y-brace becomes an assignment to the exported name
from the local name, and an export list with a from clause becomes the
re-export rewrite produced by the earlier pass. -/
theorem C8_amended_bare_exports :
    transform_module (fun _ => none) "export \x7b a, b \x7d" "/m/a.js" [] =
      "exports.a = a; exports.b = b" ∧
    transform_module (fun _ => none) "export \x7b x as y \x7d" "/m/a.js" [] =
      "exports.y = x" ∧
    transform_module (fun _ => none)
      "export \x7b a \x7d from \x22m\x22" "/m/a.js" [] =
      "exports.a = require(\x22m\x22).a" :=
  ⟨rfl, rfl, rfl⟩


end Rasen
